import Mathlib

/-! ## Employee hierarchy tree (`src/h.cpp`)

A shallow embedding of the `EmployeeNode` class and of `manageEmployee`.

* A node owns its subordinates, so the tree is an inductive value whose
  `subordinates` field is the `std::vector<EmployeeNode*>` in insertion order.
* An `EmployeeNode*` that points into the tree is a `NodeRef`: the list of child
  indices leading from the node the method was called on to the target.
  `nodeAt` dereferences such a pointer, `modifyAt` writes through it.
* Methods that mutate in place return the new tree together with their C++
  return value.
* An output stream is the `String` of the characters written to it so far.
* `int` ids are `Int`; no arithmetic is performed on them. Recursion levels are
  `Nat` (they start at 0 and only grow by one per tree level).
-/

/-- The class `EmployeeNode`: `id`, `name`, `position`, `subordinates`. -/
inductive EmployeeNode where
  | mk (id : Int) (name : String) (position : String)
      (subordinates : List EmployeeNode)

/-- An `EmployeeNode*` into a tree: child indices from the receiver downwards. -/
abbrev NodeRef := List Nat

namespace EmployeeNode

/-- Field `id`. -/
def id : EmployeeNode → Int
  | mk i _ _ _ => i

/-- Field `name`. -/
def name : EmployeeNode → String
  | mk _ n _ _ => n

/-- Field `position`. -/
def position : EmployeeNode → String
  | mk _ _ p _ => p

/-- Field `subordinates`. -/
def subordinates : EmployeeNode → List EmployeeNode
  | mk _ _ _ s => s

/-- Assignment `node->name = newName`. -/
def setName (newName : String) : EmployeeNode → EmployeeNode
  | mk i _ p s => mk i newName p s

/-- Assignment `node->position = newPosition`. -/
def setPosition (newPosition : String) : EmployeeNode → EmployeeNode
  | mk i n _ s => mk i n newPosition s

/-- Method `addSubordinate`: `subordinates.push_back(subordinate)`. -/
def addSubordinate (subordinate : EmployeeNode) : EmployeeNode → EmployeeNode
  | mk i n p s => mk i n p (s ++ [subordinate])

/-- Replace element `k` of a vector by `f` of it (no effect when out of range). -/
def modifyNth (f : EmployeeNode → EmployeeNode) : List EmployeeNode → Nat → List EmployeeNode
  | [], _ => []
  | c :: cs, 0 => f c :: cs
  | c :: cs, k + 1 => c :: modifyNth f cs k

/-- Dereference a pointer: the node reached from `t` along `ref`. -/
def nodeAt : EmployeeNode → NodeRef → Option EmployeeNode
  | t, [] => some t
  | t, k :: ref =>
    match t.subordinates[k]? with
    | some c => nodeAt c ref
    | none => none

/-- Write through a pointer: apply `f` to the node reached from `t` along `ref`. -/
def modifyAt (f : EmployeeNode → EmployeeNode) : EmployeeNode → NodeRef → EmployeeNode
  | t, [] => f t
  | mk i n p s, k :: ref => mk i n p (modifyNth (fun c => modifyAt f c ref) s k)

mutual
/-- Method `findById`: the receiver if its id matches, else the first non-null
result among the subordinates, in order; `none` is `nullptr`. -/
def findById : EmployeeNode → Int → Option NodeRef
  | mk i _ _ subs, searchId =>
    if i = searchId then some [] else findByIdLoop subs 0 searchId
/-- The `for` loop of `findById` over the subordinates from index `k` on. -/
def findByIdLoop : List EmployeeNode → Nat → Int → Option NodeRef
  | [], _, _ => none
  | c :: cs, k, searchId =>
    match findById c searchId with
    | some found => some (k :: found)
    | none => findByIdLoop cs (k + 1) searchId
end

mutual
/-- Method `findAllByPosition`; `self` is the pointer `this`, `foundEmployees`
the vector passed by reference, returned after the call. -/
def findAllByPosition : EmployeeNode → NodeRef → String → List NodeRef → List NodeRef
  | mk _ _ p subs, self, position, foundEmployees =>
    findAllByPositionLoop subs self 0 position
      (if p = position then foundEmployees ++ [self] else foundEmployees)
/-- The `for` loop of `findAllByPosition` over the subordinates from index `k` on. -/
def findAllByPositionLoop :
    List EmployeeNode → NodeRef → Nat → String → List NodeRef → List NodeRef
  | [], _, _, _, foundEmployees => foundEmployees
  | c :: cs, self, k, position, foundEmployees =>
    findAllByPositionLoop cs self (k + 1) position
      (findAllByPosition c (self ++ [k]) position foundEmployees)
end

mutual
/-- Method `deleteEmployee`: the tree after the call and the returned flag. -/
def deleteEmployee : EmployeeNode → Int → EmployeeNode × Bool
  | mk i n p subs, deleteId =>
    let r := deleteEmployeeLoop subs deleteId
    (mk i n p r.1, r.2)
/-- The iterator loop of `deleteEmployee` from the current iterator position on:
erase the element if its id matches, else recurse into it, else advance. -/
def deleteEmployeeLoop : List EmployeeNode → Int → List EmployeeNode × Bool
  | [], _ => ([], false)
  | c :: cs, deleteId =>
    if c.id = deleteId then (cs, true)
    else
      let r := deleteEmployee c deleteId
      if r.2 then (r.1 :: cs, true)
      else
        let rest := deleteEmployeeLoop cs deleteId
        (r.1 :: rest.1, rest.2)
end

/-- Method `updateEmployee`: the tree after the call and the returned flag. -/
def updateEmployee (t : EmployeeNode) (updateId : Int) (newName newPosition : String) :
    EmployeeNode × Bool :=
  match findById t updateId with
  | some employeeToUpdate =>
    let t1 := if newName ≠ "" then modifyAt (setName newName) t employeeToUpdate else t
    let t2 := if newPosition ≠ "" then modifyAt (setPosition newPosition) t1 employeeToUpdate
      else t1
    (t2, true)
  | none => (t, false)

/-- Method `promoteEmployee`: the tree after the call and the returned flag. -/
def promoteEmployee (t : EmployeeNode) (promoteId : Int) (newPosition : String) :
    EmployeeNode × Bool :=
  match findById t promoteId with
  | some employeeToPromote =>
    if newPosition ≠ "" then (modifyAt (setPosition newPosition) t employeeToPromote, true)
    else (t, false)
  | none => (t, false)

/-- Method `demoteEmployee`: the tree after the call and the returned flag. -/
def demoteEmployee (t : EmployeeNode) (demoteId : Int) (newPosition : String) :
    EmployeeNode × Bool :=
  match findById t demoteId with
  | some employeeToDemote =>
    if newPosition ≠ "" then (modifyAt (setPosition newPosition) t employeeToDemote, true)
    else (t, false)
  | none => (t, false)

/-- The loop `for (int i = 0; i < level; ++i) out << "  ";`, counted by the
iterations left. -/
def writeIndent (out : String) : Nat → String
  | 0 => out
  | n + 1 => writeIndent (out ++ "  ") n

mutual
/-- Method `writeEmployeeInfo`: the stream contents after the call. -/
def writeEmployeeInfo : EmployeeNode → String → Nat → String
  | mk i n p subs, outFile, level =>
    writeEmployeeInfoLoop subs
      (writeIndent outFile level ++ p ++ " (ID: " ++ toString i ++ "): " ++ n ++ "\n")
      (level + 1)
/-- The `for` loop of `writeEmployeeInfo` over the subordinates. -/
def writeEmployeeInfoLoop : List EmployeeNode → String → Nat → String
  | [], outFile, _ => outFile
  | c :: cs, outFile, level =>
    writeEmployeeInfoLoop cs (writeEmployeeInfo c outFile level) level
end

mutual
/-- Method `displayHierarchy`: the contents of `std::cout` after the call. -/
def displayHierarchy : EmployeeNode → String → Nat → String
  | mk i n p subs, cout, level =>
    displayHierarchyLoop subs
      (writeIndent cout level ++ p ++ " (ID: " ++ toString i ++ "): " ++ n ++ "\n")
      (level + 1)
/-- The `for` loop of `displayHierarchy` over the subordinates. -/
def displayHierarchyLoop : List EmployeeNode → String → Nat → String
  | [], cout, _ => cout
  | c :: cs, cout, level =>
    displayHierarchyLoop cs (displayHierarchy c cout level) level
end

end EmployeeNode

/-- The enum `ActionType`. -/
inductive ActionType where
  | ADD_SUBORDINATE
  | PROMOTE
  | DEMOTE
  | DELETE
  | UPDATE
deriving DecidableEq

/-- What a call of `manageEmployee` leaves behind: the tree `ceo` points to,
the returned flag and the text written to `std::cout`. -/
structure ManageResult where
  ceo : Option EmployeeNode
  ret : Bool
  cout : String

/-- Function `manageEmployee`. `ceo = none` is the null pointer. The C++ default
arguments (`newName = ""`, `newPosition = ""`, `supervisorId = -1`) are passed
explicitly here. -/
def manageEmployee (ceo : Option EmployeeNode) (action : ActionType) (id : Int)
    (newName newPosition : String) (supervisorId : Int) : ManageResult :=
  match action with
  | .ADD_SUBORDINATE =>
    match ceo with
    | some t =>
      match EmployeeNode.findById t supervisorId with
      | some supervisor =>
        let subordinate := EmployeeNode.mk id newName newPosition []
        ⟨some (EmployeeNode.modifyAt (EmployeeNode.addSubordinate subordinate) t supervisor),
          true, "Subordinate added successfully.\n"⟩
      | none => ⟨some t, false, "Supervisor not found.\n"⟩
    | none => ⟨none, false, "No company exists.\n"⟩
  | .PROMOTE =>
    match ceo with
    | some t => let r := EmployeeNode.promoteEmployee t id newPosition; ⟨some r.1, r.2, ""⟩
    | none => ⟨none, false, ""⟩
  | .DEMOTE =>
    match ceo with
    | some t => let r := EmployeeNode.demoteEmployee t id newPosition; ⟨some r.1, r.2, ""⟩
    | none => ⟨none, false, ""⟩
  | .DELETE =>
    match ceo with
    | some t => let r := EmployeeNode.deleteEmployee t id; ⟨some r.1, r.2, ""⟩
    | none => ⟨none, false, ""⟩
  | .UPDATE =>
    match ceo with
    | some t =>
      let r := EmployeeNode.updateEmployee t id newName newPosition
      if r.2 then ⟨some r.1, true, "Employee updated successfully.\n"⟩
      else ⟨some r.1, true, "Employee not found.\n"⟩
    | none => ⟨none, true, "Employee not found.\n"⟩

/-! ## Vocabulary of the specification -/

namespace EmployeeNode

mutual
/-- Pre-order enumeration of a tree: the node itself, then the enumerations of
its subordinates in insertion order. Each node comes with the pointer to it. -/
def preorder : EmployeeNode → List (NodeRef × EmployeeNode)
  | mk i n p subs => ([], mk i n p subs) :: preorderChildren subs 0
/-- Pre-order enumeration of a subordinates vector whose first element has
index `k`. -/
def preorderChildren : List EmployeeNode → Nat → List (NodeRef × EmployeeNode)
  | [], _ => []
  | c :: cs, k =>
    (preorder c).map (fun e => (k :: e.1, e.2)) ++ preorderChildren cs (k + 1)
end

/-- The ids carried by the nodes of a tree, in pre-order. -/
def ids (t : EmployeeNode) : List Int :=
  (preorder t).map (fun e => e.2.id)

/-- The fields `(id, name, position)` of the node a pointer leads to, `none` when
the tree has no node there. -/
def labelAt (t : EmployeeNode) (ref : NodeRef) : Option (Int × String × String) :=
  (nodeAt t ref).map (fun n => (n.id, n.name, n.position))

end EmployeeNode

/-- One row of the hierarchy listing: `(depth, id, name, position)`. -/
structure Entry where
  depth : Nat
  id : Int
  name : String
  position : String
deriving DecidableEq

namespace EmployeeNode

mutual
/-- The pre-order listing of `(depth, id, name, position)` of a tree whose root
is at depth `d`; subordinates are one level deeper. -/
def listing : EmployeeNode → Nat → List Entry
  | mk i n p subs, d => ⟨d, i, n, p⟩ :: listingChildren subs (d + 1)
/-- The listing of a subordinates vector whose elements are at depth `d`. -/
def listingChildren : List EmployeeNode → Nat → List Entry
  | [], _ => []
  | c :: cs, d => listing c d ++ listingChildren cs d
end

end EmployeeNode

/-- Indentation of the export format: two ASCII spaces per depth level. -/
def indentation (depth : Nat) : String :=
  String.mk (List.replicate (2 * depth) ' ')

/-- One line of the export format: indentation, then
`<position> (ID: <id>): <name>`, then a newline. -/
def Entry.line (e : Entry) : String :=
  indentation e.depth ++ e.position ++ " (ID: " ++ toString e.id ++ "): " ++ e.name ++ "\n"

/-- Concatenation of a list of texts, in order. -/
def concatLines : List String → String
  | [] => ""
  | s :: rest => s ++ concatLines rest

/-- One add-subordinate request: the new node's fields and the parent's id. -/
structure AddCall where
  id : Int
  name : String
  position : String
  supervisorId : Int
deriving DecidableEq

/-- Run a sequence of `manageEmployee(ceo, ADD_SUBORDINATE, ...)` calls on a
company, collecting the returned flags. -/
def runAdds : Option EmployeeNode → List AddCall → Option EmployeeNode × List Bool
  | ceo, [] => (ceo, [])
  | ceo, c :: cs =>
    let r := manageEmployee ceo .ADD_SUBORDINATE c.id c.name c.position c.supervisorId
    let rest := runAdds r.ceo cs
    (rest.1, r.ret :: rest.2)

/-- Every call of the sequence names a parent id that some node of the tree
carries at the time of that call. -/
def parentsPresent : Option EmployeeNode → List AddCall → Prop
  | _, [] => True
  | none, _ :: _ => False
  | some t, c :: cs =>
    c.supervisorId ∈ t.ids ∧
      parentsPresent (manageEmployee (some t) .ADD_SUBORDINATE c.id c.name c.position
        c.supervisorId).ceo cs

/-- The scenario tree: Alice (1, CEO) with subordinate Bob (2, VP), whose
subordinate is Carol (3, Eng). -/
def aliceTree : EmployeeNode :=
  .mk 1 "Alice" "CEO" [.mk 2 "Bob" "VP" [.mk 3 "Carol" "Eng" []]]

/-- A company in which two subordinates of the root share id 2. -/
def duplicateTree : EmployeeNode :=
  .mk 1 "Alice" "CEO" [.mk 2 "Bob" "VP" [], .mk 2 "Bobby" "Eng" []]

/-- A company with two branches: Bob (2) above Carol (3), and Dan (4). -/
def branchTree : EmployeeNode :=
  .mk 1 "Alice" "CEO" [.mk 2 "Bob" "VP" [.mk 3 "Carol" "Eng" []], .mk 4 "Dan" "VP" []]

/-- A company that consists of its root only. -/
def soloTree : EmployeeNode :=
  .mk 1 "Alice" "CEO" []

/-- Two add requests with the same new id 2, both under the root. -/
def duplicateCalls : List AddCall :=
  [⟨2, "Bob", "VP", 1⟩, ⟨2, "Bobby", "Eng", 1⟩]

/-- The add requests of the scenario: Bob (2) under 1, Carol (3) under 2. -/
def scenarioCalls : List AddCall :=
  [⟨2, "Bob", "VP", 1⟩, ⟨3, "Carol", "Eng", 2⟩]

namespace EmployeeNode

@[simp] theorem id_mk (i : Int) (n p : String) (s : List EmployeeNode) :
    (mk i n p s).id = i := rfl

@[simp] theorem name_mk (i : Int) (n p : String) (s : List EmployeeNode) :
    (mk i n p s).name = n := rfl

@[simp] theorem position_mk (i : Int) (n p : String) (s : List EmployeeNode) :
    (mk i n p s).position = p := rfl

@[simp] theorem subordinates_mk (i : Int) (n p : String) (s : List EmployeeNode) :
    (mk i n p s).subordinates = s := rfl

theorem eta (t : EmployeeNode) : mk t.id t.name t.position t.subordinates = t := by
  cases t; rfl

theorem preorder_eq (t : EmployeeNode) :
    preorder t = ([], t) :: preorderChildren t.subordinates 0 := by
  cases t; simp [preorder]

theorem listing_eq (t : EmployeeNode) (d : Nat) :
    listing t d = ⟨d, t.id, t.name, t.position⟩ :: listingChildren t.subordinates (d + 1) := by
  cases t; simp [listing]

@[simp] theorem nodeAt_nil (t : EmployeeNode) : nodeAt t [] = some t := by
  cases t; rfl

theorem nodeAt_cons (t : EmployeeNode) (k : Nat) (ref : NodeRef) :
    nodeAt t (k :: ref) = (t.subordinates[k]?).bind (fun c => nodeAt c ref) := by
  cases h : t.subordinates[k]? <;> simp [nodeAt, h]

/-! ### Pre-order enumeration and pointers -/

mutual
theorem nodeAt_of_mem_preorder (t : EmployeeNode) (ref : NodeRef) (n : EmployeeNode)
    (h : (ref, n) ∈ preorder t) : nodeAt t ref = some n := by
  cases t with
  | mk i nm p subs =>
    simp only [preorder, List.mem_cons] at h
    rcases h with h | h
    · cases h; simp
    · obtain ⟨j, ref1, c, rfl, hc, hn⟩ := nodeAt_of_mem_preorderChildren subs 0 ref n h
      simp [nodeAt_cons, hc, hn]
theorem nodeAt_of_mem_preorderChildren (cs : List EmployeeNode) (k : Nat) (ref : NodeRef)
    (n : EmployeeNode) (h : (ref, n) ∈ preorderChildren cs k) :
    ∃ j ref1 c, ref = (k + j) :: ref1 ∧ cs[j]? = some c ∧ nodeAt c ref1 = some n := by
  cases cs with
  | nil => simp [preorderChildren] at h
  | cons c cs =>
    simp only [preorderChildren, List.mem_append, List.mem_map] at h
    rcases h with ⟨e, he, heq⟩ | h
    · cases heq
      exact ⟨0, e.1, c, by simp, by simp, nodeAt_of_mem_preorder c e.1 e.2 he⟩
    · obtain ⟨j, ref1, c1, rfl, hc, hn⟩ := nodeAt_of_mem_preorderChildren cs (k + 1) ref n h
      exact ⟨j + 1, ref1, c1, by simp [Nat.add_comm, Nat.add_left_comm], by simpa using hc, hn⟩
end

theorem mem_preorderChildren_of_get (cs : List EmployeeNode) :
    ∀ (k j : Nat) (c : EmployeeNode) (e : NodeRef × EmployeeNode), cs[j]? = some c →
      e ∈ preorder c → ((k + j) :: e.1, e.2) ∈ preorderChildren cs k := by
  induction cs with
  | nil => intro k j c e h; simp at h
  | cons a cs ih =>
    intro k j c e h he
    cases j with
    | zero =>
      simp only [List.getElem?_cons_zero, Option.some.injEq] at h
      subst h
      simp only [preorderChildren, List.mem_append, List.mem_map]
      exact Or.inl ⟨e, he, by simp⟩
    | succ j =>
      simp only [List.getElem?_cons_succ] at h
      simp only [preorderChildren, List.mem_append]
      refine Or.inr ?_
      have := ih (k + 1) j c e h he
      simpa [Nat.add_comm, Nat.add_left_comm, Nat.add_assoc] using this

theorem mem_preorder_of_nodeAt (ref : NodeRef) :
    ∀ (t n : EmployeeNode), nodeAt t ref = some n → (ref, n) ∈ preorder t := by
  induction ref with
  | nil =>
    intro t n h
    simp only [nodeAt_nil, Option.some.injEq] at h
    subst h
    rw [preorder_eq]; exact List.mem_cons_self _ _
  | cons k ref ih =>
    intro t n h
    rw [nodeAt_cons] at h
    cases hc : t.subordinates[k]? with
    | none => simp [hc] at h
    | some c =>
      simp only [hc, Option.some_bind] at h
      rw [preorder_eq]
      refine List.mem_cons_of_mem _ ?_
      have := mem_preorderChildren_of_get t.subordinates 0 k c (ref, n) hc (ih c n h)
      simpa using this

/-- The pre-order enumeration lists exactly the nodes of the tree, each with the
pointer that leads to it. -/
theorem mem_preorder_iff (t : EmployeeNode) (ref : NodeRef) (n : EmployeeNode) :
    (ref, n) ∈ preorder t ↔ nodeAt t ref = some n :=
  ⟨nodeAt_of_mem_preorder t ref n, mem_preorder_of_nodeAt ref t n⟩

/-! ### `findById` -/

mutual
theorem findById_eq_find (t : EmployeeNode) (q : Int) :
    findById t q = ((preorder t).find? (fun e => decide (e.2.id = q))).map Prod.fst := by
  cases t with
  | mk i n p subs =>
    have ih := findByIdLoop_eq_find subs 0 q
    by_cases h : i = q
    · simp [findById, preorder, h]
    · simp [findById, preorder, h, ih]
theorem findByIdLoop_eq_find (cs : List EmployeeNode) (k : Nat) (q : Int) :
    findByIdLoop cs k q
      = ((preorderChildren cs k).find? (fun e => decide (e.2.id = q))).map Prod.fst := by
  cases cs with
  | nil => simp [findByIdLoop, preorderChildren]
  | cons c cs =>
    simp only [findByIdLoop, preorderChildren, List.find?_append, List.find?_map]
    rw [findById_eq_find c q, findByIdLoop_eq_find cs (k + 1) q]
    cases h : (preorder c).find? (fun e => decide (e.2.id = q)) with
    | none => simp [Function.comp_def, h]
    | some e => simp [Function.comp_def, h]
end

theorem findById_eq_none_iff (t : EmployeeNode) (q : Int) :
    findById t q = none ↔ q ∉ ids t := by
  rw [findById_eq_find]
  simp only [Option.map_eq_none', List.find?_eq_none, decide_eq_true_eq, ids, List.mem_map,
    not_exists, not_and]

theorem findById_some_spec (t : EmployeeNode) (q : Int) (ref : NodeRef)
    (h : findById t q = some ref) : ∃ n, (ref, n) ∈ preorder t ∧ n.id = q := by
  rw [findById_eq_find] at h
  cases hf : (preorder t).find? (fun e => decide (e.2.id = q)) with
  | none => simp [hf] at h
  | some e =>
    simp only [hf, Option.map_some', Option.some.injEq] at h
    subst h
    have h1 := List.find?_some hf
    have h2 := List.mem_of_find?_eq_some hf
    exact ⟨e.2, h2, by simpa using h1⟩

end EmployeeNode

/-! ## C1: `findById` returns the first pre-order match -/

/-- C1: for every tree and id, `findById` returns a pointer exactly when that
pointer leads to the first node of the pre-order enumeration (node before its
subordinates, subordinates in insertion order) whose id equals the query, and it
returns null exactly when no node of the tree carries the id. -/
theorem EmployeeNode.findById_first_preorder_match (t : EmployeeNode) (searchId : Int) :
    (∀ ref : NodeRef, EmployeeNode.findById t searchId = some ref ↔
      ∃ before n after, EmployeeNode.preorder t = before ++ (ref, n) :: after ∧
        n.id = searchId ∧ ∀ e ∈ before, e.2.id ≠ searchId) ∧
    (EmployeeNode.findById t searchId = none ↔
      ∀ e ∈ EmployeeNode.preorder t, e.2.id ≠ searchId) := by
  refine ⟨fun ref => ?_, ?_⟩
  · rw [EmployeeNode.findById_eq_find]
    constructor
    · intro h
      cases hf : (EmployeeNode.preorder t).find? (fun e => decide (e.2.id = searchId)) with
      | none => simp [hf] at h
      | some e =>
        simp only [hf, Option.map_some', Option.some.injEq] at h
        subst h
        obtain ⟨hp, as, bs, hl, hall⟩ := List.find?_eq_some.1 hf
        refine ⟨as, e.2, bs, hl, by simpa using hp, ?_⟩
        intro a ha
        simpa using hall a ha
    · rintro ⟨before, n, after, hl, hn, hall⟩
      have : (EmployeeNode.preorder t).find? (fun e => decide (e.2.id = searchId))
          = some (ref, n) := by
        rw [List.find?_eq_some]
        refine ⟨by simpa using hn, before, after, hl, ?_⟩
        intro a ha
        simpa using hall a ha
      simp [this]
  · rw [EmployeeNode.findById_eq_none_iff]
    simp [EmployeeNode.ids]

/-! ## Facts about the listing -/

namespace EmployeeNode

mutual
theorem listing_map_id (t : EmployeeNode) (d : Nat) :
    (listing t d).map Entry.id = ids t := by
  cases t with
  | mk i n p subs =>
    have ih := listingChildren_map_id subs (d + 1) 0
    simp [listing, ids, preorder, ih]
theorem listingChildren_map_id (cs : List EmployeeNode) (d k : Nat) :
    (listingChildren cs d).map Entry.id = (preorderChildren cs k).map (fun e => e.2.id) := by
  cases cs with
  | nil => simp [listingChildren, preorderChildren]
  | cons c cs =>
    have h1 := listing_map_id c d
    have h2 := listingChildren_map_id cs d (k + 1)
    simp [listingChildren, preorderChildren, h1, h2, ids, Function.comp_def]
end

theorem head_listingChildren (cs : List EmployeeNode) (d : Nat) :
    ∀ x ∈ (listingChildren cs d).head?, x.depth = d := by
  cases cs with
  | nil => simp [listingChildren]
  | cons c cs =>
    intro x hx
    rw [listingChildren, listing_eq] at hx
    simp only [List.cons_append, List.head?_cons, Option.mem_def, Option.some.injEq] at hx
    subst hx; rfl

theorem mem_ids_iff_listing (t : EmployeeNode) (d : Nat) (q : Int) :
    q ∈ ids t ↔ ∃ x ∈ listing t d, x.id = q := by
  rw [← listing_map_id t d]; simp

/-! ## `deleteEmployee` -/

mutual
theorem deleteEmployee_false (t : EmployeeNode) (q : Int)
    (h : (deleteEmployee t q).2 = false) :
    (deleteEmployee t q).1 = t ∧ ∀ d, ∀ x ∈ listingChildren t.subordinates d, x.id ≠ q := by
  cases t with
  | mk i n p subs =>
    simp only [deleteEmployee] at h ⊢
    obtain ⟨h1, h2⟩ := deleteEmployeeLoop_false subs q h
    exact ⟨by rw [h1], by simpa using h2⟩
theorem deleteEmployeeLoop_false (cs : List EmployeeNode) (q : Int)
    (h : (deleteEmployeeLoop cs q).2 = false) :
    (deleteEmployeeLoop cs q).1 = cs ∧ ∀ d, ∀ x ∈ listingChildren cs d, x.id ≠ q := by
  cases cs with
  | nil => simp [deleteEmployeeLoop, listingChildren]
  | cons c cs =>
    simp only [deleteEmployeeLoop] at h ⊢
    by_cases hc : c.id = q
    · simp [hc] at h
    · simp only [hc, if_false] at h ⊢
      cases hd : (deleteEmployee c q).2 with
      | true => simp [hd] at h
      | false =>
        simp only [hd, Bool.false_eq_true, if_false] at h ⊢
        obtain ⟨c1, c2⟩ := deleteEmployee_false c q hd
        obtain ⟨r1, r2⟩ := deleteEmployeeLoop_false cs q h
        refine ⟨by rw [c1, r1], ?_⟩
        intro d x hx
        rw [listingChildren, listing_eq] at hx
        simp only [List.cons_append, List.mem_cons, List.mem_append] at hx
        rcases hx with rfl | hx | hx
        · exact hc
        · exact c2 _ x hx
        · exact r2 _ x hx
end

mutual
theorem deleteEmployee_true (t : EmployeeNode) (q : Int) (d : Nat)
    (h : (deleteEmployee t q).2 = true) :
    ∃ pre ref r post, ref ≠ [] ∧ nodeAt t ref = some r ∧ r.id = q ∧
      listingChildren t.subordinates (d + 1) = pre ++ listing r (d + ref.length) ++ post ∧
      listingChildren (deleteEmployee t q).1.subordinates (d + 1) = pre ++ post ∧
      (∀ x ∈ pre, x.id ≠ q) ∧ (∀ x ∈ post.head?, x.depth ≤ d + ref.length) := by
  cases t with
  | mk i n p subs =>
    simp only [deleteEmployee] at h ⊢
    obtain ⟨pre, j, ref, c, r, post, hc, hr, hid, hl, hl1, hpre, hpost⟩ :=
      deleteEmployeeLoop_true subs q d h
    refine ⟨pre, j :: ref, r, post, by simp, ?_, hid, ?_, by simpa using hl1, hpre, ?_⟩
    · simp [nodeAt_cons, hc, hr]
    · simpa [Nat.add_assoc, Nat.add_comm 1] using hl
    · simpa [Nat.add_assoc, Nat.add_comm 1] using hpost
theorem deleteEmployeeLoop_true (cs : List EmployeeNode) (q : Int) (d : Nat)
    (h : (deleteEmployeeLoop cs q).2 = true) :
    ∃ (pre : List Entry) (j : Nat) (ref : NodeRef) (c r : EmployeeNode) (post : List Entry),
      cs[j]? = some c ∧ nodeAt c ref = some r ∧ r.id = q ∧
      listingChildren cs (d + 1) = pre ++ listing r (d + 1 + ref.length) ++ post ∧
      listingChildren (deleteEmployeeLoop cs q).1 (d + 1) = pre ++ post ∧
      (∀ x ∈ pre, x.id ≠ q) ∧ (∀ x ∈ post.head?, x.depth ≤ d + 1 + ref.length) := by
  cases cs with
  | nil => simp [deleteEmployeeLoop] at h
  | cons c cs =>
    simp only [deleteEmployeeLoop] at h ⊢
    by_cases hc : c.id = q
    · simp only [hc, if_true]
      refine ⟨[], 0, [], c, c, listingChildren cs (d + 1), by simp, by simp, hc, ?_, by simp,
        by simp, ?_⟩
      · simp [listingChildren]
      · intro x hx
        exact le_of_eq (head_listingChildren cs (d + 1) x hx)
    · simp only [hc, if_false] at h ⊢
      cases hd : (deleteEmployee c q).2 with
      | true =>
        simp only [hd, if_true]
        obtain ⟨pre, ref, r, post, hne, hr, hid, hl, hl1, hpre, hpost⟩ :=
          deleteEmployee_true c q (d + 1) hd
        refine ⟨⟨d + 1, c.id, c.name, c.position⟩ :: pre, 0, ref, c, r,
          post ++ listingChildren cs (d + 1), by simp, hr, hid, ?_, ?_, ?_, ?_⟩
        · rw [listingChildren, listing_eq, hl]; simp
        · have e1 : (deleteEmployee c q).1.id = c.id := by cases c; rfl
          have e2 : (deleteEmployee c q).1.name = c.name := by cases c; rfl
          have e3 : (deleteEmployee c q).1.position = c.position := by cases c; rfl
          rw [listingChildren, listing_eq, hl1, e1, e2, e3]; simp
        · intro x hx
          rcases List.mem_cons.1 hx with rfl | hx
          · exact hc
          · exact hpre x hx
        · intro x hx
          cases post with
          | nil =>
            simp only [List.nil_append] at hx
            have := head_listingChildren cs (d + 1) x hx
            omega
          | cons y ys =>
            simp only [List.cons_append, List.head?_cons, Option.mem_def,
              Option.some.injEq] at hx
            subst hx
            exact hpost _ (by simp)
      | false =>
        simp only [hd, Bool.false_eq_true, if_false] at h ⊢
        obtain ⟨c1, c2⟩ := deleteEmployee_false c q hd
        obtain ⟨pre, j, ref, c', r, post, hj, hr, hid, hl, hl1, hpre, hpost⟩ :=
          deleteEmployeeLoop_true cs q d h
        refine ⟨listing c (d + 1) ++ pre, j + 1, ref, c', r, post, by simpa using hj, hr, hid,
          ?_, ?_, ?_, hpost⟩
        · rw [listingChildren, hl]; simp
        · rw [listingChildren, hl1, c1]; simp
        · intro x hx
          rcases List.mem_append.1 hx with hx | hx
          · rw [listing_eq] at hx
            rcases List.mem_cons.1 hx with rfl | hx
            · exact hc
            · exact c2 _ x hx
          · exact hpre x hx
end

end EmployeeNode

namespace EmployeeNode

mutual
theorem depth_le_of_mem_listing (t : EmployeeNode) (d : Nat) :
    ∀ x ∈ listing t d, d ≤ x.depth := by
  cases t with
  | mk i n p subs =>
    intro x hx
    simp only [listing, List.mem_cons] at hx
    rcases hx with rfl | hx
    · exact le_refl _
    · exact Nat.le_of_succ_le (depth_le_of_mem_listingChildren subs (d + 1) x hx)
theorem depth_le_of_mem_listingChildren (cs : List EmployeeNode) (d : Nat) :
    ∀ x ∈ listingChildren cs d, d ≤ x.depth := by
  cases cs with
  | nil => simp [listingChildren]
  | cons c cs =>
    intro x hx
    simp only [listingChildren, List.mem_append] at hx
    rcases hx with hx | hx
    · exact depth_le_of_mem_listing c d x hx
    · exact depth_le_of_mem_listingChildren cs d x hx
end

theorem id_mem_ids (t : EmployeeNode) : t.id ∈ ids t := by
  simp [ids, preorder_eq t]

theorem deleteEmployee_fields (t : EmployeeNode) (q : Int) :
    (deleteEmployee t q).1.id = t.id ∧ (deleteEmployee t q).1.name = t.name ∧
      (deleteEmployee t q).1.position = t.position := by
  cases t; exact ⟨rfl, rfl, rfl⟩

end EmployeeNode

/-! ## C2: deleted ids are no longer found -/

/-- C2 (as stated, refuted): in a company where two subordinates share id 2,
`deleteEmployee(2)` returns true and `findById(2)` still finds a node. -/
theorem EmployeeNode.deleteEmployee_duplicate_still_found :
    (EmployeeNode.deleteEmployee duplicateTree 2).2 = true ∧
      EmployeeNode.findById (EmployeeNode.deleteEmployee duplicateTree 2).1 2 = some [0] := by
  decide

/-- C2 (amended): in a tree whose ids are pairwise distinct, when
`deleteEmployee(id)` returns true, `findById(id)` afterwards returns null, and
so does `findById` of the id of every node in the subtree of the node that
carried the id before the call. -/
theorem EmployeeNode.deleteEmployee_then_not_found (t : EmployeeNode) (deleteId : Int)
    (hdistinct : (EmployeeNode.ids t).Nodup)
    (h : (EmployeeNode.deleteEmployee t deleteId).2 = true) :
    EmployeeNode.findById (EmployeeNode.deleteEmployee t deleteId).1 deleteId = none ∧
    ∃ ref r, EmployeeNode.findById t deleteId = some ref ∧ EmployeeNode.nodeAt t ref = some r ∧
      ∀ e ∈ EmployeeNode.preorder r,
        EmployeeNode.findById (EmployeeNode.deleteEmployee t deleteId).1 e.2.id = none := by
  obtain ⟨pre, ref, r, post, _, hr, hid, hl, hl1, _, _⟩ :=
    EmployeeNode.deleteEmployee_true t deleteId 0 h
  obtain ⟨f1, f2, f3⟩ := EmployeeNode.deleteEmployee_fields t deleteId
  have hids : EmployeeNode.ids t
      = t.id :: (pre.map Entry.id ++ EmployeeNode.ids r ++ post.map Entry.id) := by
    rw [← EmployeeNode.listing_map_id t 0, EmployeeNode.listing_eq, List.map_cons, hl]
    simp [EmployeeNode.listing_map_id]
  have hids1 : EmployeeNode.ids (EmployeeNode.deleteEmployee t deleteId).1
      = t.id :: (pre.map Entry.id ++ post.map Entry.id) := by
    rw [← EmployeeNode.listing_map_id _ 0, EmployeeNode.listing_eq, List.map_cons, hl1, f1]
    simp
  have hgone : ∀ x ∈ EmployeeNode.ids r,
      EmployeeNode.findById (EmployeeNode.deleteEmployee t deleteId).1 x = none := by
    intro x hx
    rw [EmployeeNode.findById_eq_none_iff, hids1]
    rw [hids] at hdistinct
    have hnd := List.nodup_cons.1 hdistinct
    have h1 : x ≠ t.id := by
      rintro rfl
      exact hnd.1 (by simp [hx])
    have h2 := List.nodup_append.1 hnd.2
    have h3 := List.nodup_append.1 h2.1
    have h4 : x ∉ pre.map Entry.id := fun hm => h3.2.2 hm hx
    have h5 : x ∉ post.map Entry.id := fun hm => h2.2.2 (List.mem_append_right _ hx) hm
    simp only [List.mem_cons, List.mem_append, not_or]
    exact ⟨h1, h4, h5⟩
  have hq : deleteId ∈ EmployeeNode.ids r := hid ▸ EmployeeNode.id_mem_ids r
  refine ⟨hgone deleteId hq, ?_⟩
  have hmem : deleteId ∈ EmployeeNode.ids t := by
    rw [hids]; simp [hq]
  cases hf : EmployeeNode.findById t deleteId with
  | none => exact absurd hmem ((EmployeeNode.findById_eq_none_iff t deleteId).1 hf)
  | some ref1 =>
    obtain ⟨n, hn, hnid⟩ := EmployeeNode.findById_some_spec t deleteId ref1 hf
    have hrm := EmployeeNode.mem_preorder_of_nodeAt ref t r hr
    have heq : (ref1, n) = (ref, r) :=
      List.inj_on_of_nodup_map hdistinct hn hrm (by simp [hnid, hid])
    cases heq
    refine ⟨ref, r, rfl, hr, ?_⟩
    intro e he
    exact hgone e.2.id (List.mem_map.2 ⟨e, he, rfl⟩)

/-- C2 witness: the scenario of the specification (Alice 1, Bob 2, Carol 3,
delete 2); `findById(1)` still returns the root, Alice. -/
theorem EmployeeNode.deleteEmployee_then_not_found_witness :
    (EmployeeNode.ids aliceTree).Nodup ∧
    (EmployeeNode.deleteEmployee aliceTree 2).2 = true ∧
    EmployeeNode.findById (EmployeeNode.deleteEmployee aliceTree 2).1 1 = some [] ∧
    EmployeeNode.labelAt (EmployeeNode.deleteEmployee aliceTree 2).1 [] = some (1, "Alice", "CEO") ∧
    EmployeeNode.findById (EmployeeNode.deleteEmployee aliceTree 2).1 2 = none ∧
    ∃ ref r, EmployeeNode.findById aliceTree 2 = some ref ∧
      EmployeeNode.nodeAt aliceTree ref = some r ∧
      ∀ e ∈ EmployeeNode.preorder r,
        EmployeeNode.findById (EmployeeNode.deleteEmployee aliceTree 2).1 e.2.id = none :=
  ⟨by decide, by decide, by decide, by decide,
    EmployeeNode.deleteEmployee_then_not_found aliceTree 2 (by decide) (by decide)⟩

/-! ## C3: `deleteEmployee` removes exactly one block of the listing -/

/-- C3: when `deleteEmployee(id)` returns true, the listing of
`(depth, id, name, position)` before the call is the root entry, then non-root
entries `pre` none of which has the id, then the listing of one node `r` of the
tree with that id (the node and all its descendants, all deeper than the node),
then entries `post` that start at most as deep as `r`; the listing after the call
is the same with the block of `r` taken out. -/
theorem EmployeeNode.deleteEmployee_removes_first_block (t : EmployeeNode) (deleteId : Int)
    (h : (EmployeeNode.deleteEmployee t deleteId).2 = true) :
    ∃ pre ref r post, ref ≠ [] ∧ EmployeeNode.nodeAt t ref = some r ∧ r.id = deleteId ∧
      EmployeeNode.listing t 0
        = ⟨0, t.id, t.name, t.position⟩ :: (pre ++ EmployeeNode.listing r ref.length ++ post) ∧
      EmployeeNode.listing (EmployeeNode.deleteEmployee t deleteId).1 0
        = ⟨0, t.id, t.name, t.position⟩ :: (pre ++ post) ∧
      (∀ x ∈ pre, x.id ≠ deleteId) ∧
      (∀ x ∈ (EmployeeNode.listing r ref.length).tail, ref.length < x.depth) ∧
      (∀ x ∈ post.head?, x.depth ≤ ref.length) := by
  obtain ⟨pre, ref, r, post, hne, hr, hid, hl, hl1, hpre, hpost⟩ :=
    EmployeeNode.deleteEmployee_true t deleteId 0 h
  obtain ⟨f1, f2, f3⟩ := EmployeeNode.deleteEmployee_fields t deleteId
  refine ⟨pre, ref, r, post, hne, hr, hid, ?_, ?_, hpre, ?_, ?_⟩
  · rw [EmployeeNode.listing_eq, hl]; simp
  · rw [EmployeeNode.listing_eq, hl1, f1, f2, f3]
  · intro x hx
    rw [EmployeeNode.listing_eq] at hx
    exact EmployeeNode.depth_le_of_mem_listingChildren _ _ x hx
  · simpa using hpost

/-- C3 witness: deleting id 2 from the two-branch company. -/
theorem EmployeeNode.deleteEmployee_removes_first_block_witness :
    (EmployeeNode.deleteEmployee branchTree 2).2 = true ∧
    ∃ pre ref r post, ref ≠ [] ∧ EmployeeNode.nodeAt branchTree ref = some r ∧ r.id = 2 ∧
      EmployeeNode.listing branchTree 0
        = ⟨0, branchTree.id, branchTree.name, branchTree.position⟩ ::
            (pre ++ EmployeeNode.listing r ref.length ++ post) ∧
      EmployeeNode.listing (EmployeeNode.deleteEmployee branchTree 2).1 0
        = ⟨0, branchTree.id, branchTree.name, branchTree.position⟩ :: (pre ++ post) ∧
      (∀ x ∈ pre, x.id ≠ 2) ∧
      (∀ x ∈ (EmployeeNode.listing r ref.length).tail, ref.length < x.depth) ∧
      (∀ x ∈ post.head?, x.depth ≤ ref.length) :=
  ⟨by decide, EmployeeNode.deleteEmployee_removes_first_block branchTree 2 (by decide)⟩

/-! ## C4: the root is never deleted -/

/-- C4: `deleteEmployee(id)` returns false exactly when no non-root node carries
the id (so always on a single-node tree, and when only the root carries it);
in that case the tree is unchanged; and after every call the root still has its
id, name and position. -/
theorem EmployeeNode.deleteEmployee_never_removes_root (t : EmployeeNode) (deleteId : Int) :
    ((EmployeeNode.deleteEmployee t deleteId).2 = false ↔
      ∀ e ∈ (EmployeeNode.preorder t).tail, e.2.id ≠ deleteId) ∧
    (t.subordinates = [] → (EmployeeNode.deleteEmployee t deleteId).2 = false) ∧
    ((EmployeeNode.deleteEmployee t deleteId).2 = false →
      (EmployeeNode.deleteEmployee t deleteId).1 = t) ∧
    (EmployeeNode.deleteEmployee t deleteId).1.id = t.id ∧
    (EmployeeNode.deleteEmployee t deleteId).1.name = t.name ∧
    (EmployeeNode.deleteEmployee t deleteId).1.position = t.position := by
  have hiff : (EmployeeNode.deleteEmployee t deleteId).2 = false ↔
      ∀ e ∈ (EmployeeNode.preorder t).tail, e.2.id ≠ deleteId := by
    have hmap := EmployeeNode.listingChildren_map_id t.subordinates 1 0
    rw [EmployeeNode.preorder_eq, List.tail_cons]
    constructor
    · intro h e he heq
      have hm : deleteId ∈ (EmployeeNode.listingChildren t.subordinates 1).map Entry.id := by
        rw [hmap]; exact List.mem_map.2 ⟨e, he, heq⟩
      obtain ⟨x, hx, hxid⟩ := List.mem_map.1 hm
      exact (EmployeeNode.deleteEmployee_false t deleteId h).2 1 x hx hxid
    · intro hall
      cases hb : (EmployeeNode.deleteEmployee t deleteId).2 with
      | false => rfl
      | true =>
        exfalso
        obtain ⟨pre, ref, r, post, _, _, hid, hl, _, _, _⟩ :=
          EmployeeNode.deleteEmployee_true t deleteId 0 hb
        have hm : deleteId ∈ (EmployeeNode.listingChildren t.subordinates (0 + 1)).map
            Entry.id := by
          rw [hl, EmployeeNode.listing_eq]; simp [hid]
        rw [Nat.zero_add, hmap] at hm
        obtain ⟨e, he, heq⟩ := List.mem_map.1 hm
        exact hall e he heq
  refine ⟨hiff, ?_, fun h => (EmployeeNode.deleteEmployee_false t deleteId h).1,
    EmployeeNode.deleteEmployee_fields t deleteId⟩
  intro hs
  rw [hiff, EmployeeNode.preorder_eq, hs]
  simp [EmployeeNode.preorderChildren]

/-! ## Writing through a pointer -/

namespace EmployeeNode

@[simp] theorem modifyAt_nil (f : EmployeeNode → EmployeeNode) (t : EmployeeNode) :
    modifyAt f t [] = f t := by
  cases t; rfl

theorem modifyAt_cons (f : EmployeeNode → EmployeeNode) (t : EmployeeNode) (k : Nat)
    (ref : NodeRef) :
    modifyAt f t (k :: ref)
      = mk t.id t.name t.position (modifyNth (fun c => modifyAt f c ref) t.subordinates k) := by
  cases t; rfl

theorem modifyNth_getElem?_same (f : EmployeeNode → EmployeeNode) (s : List EmployeeNode) :
    ∀ k : Nat, (modifyNth f s k)[k]? = (s[k]?).map f := by
  induction s with
  | nil => intro k; simp [modifyNth]
  | cons c cs ih =>
    intro k
    cases k with
    | zero => simp [modifyNth]
    | succ k => simpa [modifyNth] using ih k

theorem modifyNth_getElem?_ne (f : EmployeeNode → EmployeeNode) (s : List EmployeeNode) :
    ∀ k j : Nat, j ≠ k → (modifyNth f s k)[j]? = s[j]? := by
  induction s with
  | nil => intro k j _; simp [modifyNth]
  | cons c cs ih =>
    intro k j hjk
    cases k with
    | zero =>
      cases j with
      | zero => exact absurd rfl hjk
      | succ j => simp [modifyNth]
    | succ k =>
      cases j with
      | zero => simp [modifyNth]
      | succ j => simpa [modifyNth] using ih k j (by omega)

theorem labelAt_nil (t : EmployeeNode) : labelAt t [] = some (t.id, t.name, t.position) := by
  simp [labelAt]

theorem labelAt_cons (t : EmployeeNode) (k : Nat) (ref : NodeRef) :
    labelAt t (k :: ref) = (t.subordinates[k]?).bind (fun c => labelAt c ref) := by
  cases h : t.subordinates[k]? <;> simp [labelAt, nodeAt_cons, h]

theorem nodeAt_append (ref : NodeRef) :
    ∀ (t : EmployeeNode) (s : NodeRef),
      nodeAt t (ref ++ s) = (nodeAt t ref).bind (fun r => nodeAt r s) := by
  induction ref with
  | nil => intro t s; simp
  | cons k ref ih =>
    intro t s
    rw [List.cons_append, nodeAt_cons, nodeAt_cons]
    cases h : t.subordinates[k]? with
    | none => simp
    | some c => simp [ih c s]

/-- Reading below the place that was written: the written node is `f` of the
old one. -/
theorem nodeAt_modifyAt_append (f : EmployeeNode → EmployeeNode) (ref : NodeRef) :
    ∀ (t : EmployeeNode) (s : NodeRef),
      nodeAt (modifyAt f t ref) (ref ++ s) = (nodeAt t ref).bind (fun r => nodeAt (f r) s) := by
  induction ref with
  | nil => intro t s; simp
  | cons k ref ih =>
    intro t s
    rw [List.cons_append, modifyAt_cons, nodeAt_cons, nodeAt_cons, subordinates_mk,
      modifyNth_getElem?_same]
    cases h : t.subordinates[k]? with
    | none => simp
    | some c => simp [ih c s]

theorem nodeAt_modifyAt_self (f : EmployeeNode → EmployeeNode) (ref : NodeRef)
    (t : EmployeeNode) : nodeAt (modifyAt f t ref) ref = (nodeAt t ref).map f := by
  have := nodeAt_modifyAt_append f ref t []
  rw [List.append_nil] at this
  rw [this]
  cases nodeAt t ref <;> simp

/-- Reading anywhere that is not at or below the place that was written. -/
theorem labelAt_modifyAt_off_path (f : EmployeeNode → EmployeeNode) (ref : NodeRef) :
    ∀ (t : EmployeeNode) (q : NodeRef), ¬ ref <+: q →
      labelAt (modifyAt f t ref) q = labelAt t q := by
  induction ref with
  | nil => intro t q h; exact absurd List.nil_prefix h
  | cons k ref ih =>
    intro t q h
    rw [modifyAt_cons]
    cases q with
    | nil => simp [labelAt_nil]
    | cons j q =>
      rw [labelAt_cons, labelAt_cons, subordinates_mk]
      by_cases hjk : j = k
      · subst hjk
        rw [modifyNth_getElem?_same]
        have h1 : ¬ ref <+: q := by
          intro hp
          exact h (List.cons_prefix_cons.2 ⟨rfl, hp⟩)
        cases hc : t.subordinates[j]? with
        | none => simp
        | some c => simp [ih c q h1]
      · rw [modifyNth_getElem?_ne _ _ _ _ hjk]

/-- A write that keeps the written node's subordinates changes no label
elsewhere. -/
theorem labelAt_modifyAt_of_ne (f : EmployeeNode → EmployeeNode)
    (hf : ∀ r, (f r).subordinates = r.subordinates) (t : EmployeeNode) (ref q : NodeRef)
    (hq : q ≠ ref) : labelAt (modifyAt f t ref) q = labelAt t q := by
  by_cases hp : ref <+: q
  · obtain ⟨s, rfl⟩ := hp
    cases s with
    | nil => simp at hq
    | cons j s =>
      simp only [labelAt]
      rw [nodeAt_modifyAt_append, nodeAt_append]
      cases nodeAt t ref with
      | none => simp
      | some r => simp [nodeAt_cons, hf r]
  · exact labelAt_modifyAt_off_path f ref t q hp

theorem mem_ids_of_exists (t : EmployeeNode) (q : Int)
    (h : ∃ e ∈ preorder t, e.2.id = q) : q ∈ ids t := by
  obtain ⟨e, he, heq⟩ := h
  exact List.mem_map.2 ⟨e, he, heq⟩

theorem findById_of_mem_ids (t : EmployeeNode) (q : Int) (h : q ∈ ids t) :
    ∃ ref r, findById t q = some ref ∧ nodeAt t ref = some r ∧ r.id = q := by
  cases hf : findById t q with
  | none => exact absurd h ((findById_eq_none_iff t q).1 hf)
  | some ref =>
    obtain ⟨n, hn, hid⟩ := findById_some_spec t q ref hf
    exact ⟨ref, n, rfl, nodeAt_of_mem_preorder t ref n hn, hid⟩

end EmployeeNode

/-! ## Appending a subordinate through a pointer -/

namespace EmployeeNode

theorem addSubordinate_eq (leaf x : EmployeeNode) :
    addSubordinate leaf x = mk x.id x.name x.position (x.subordinates ++ [leaf]) := by
  cases x; rfl

/-- The effect of `supervisor->addSubordinate(leaf)` on the whole tree, for a
leaf without subordinates. -/
theorem modifyAt_addSubordinate_frame (t : EmployeeNode) (ref : NodeRef) (r : EmployeeNode)
    (id : Int) (name position : String) (hr : nodeAt t ref = some r) :
    nodeAt (modifyAt (addSubordinate (mk id name position [])) t ref) ref
        = some (mk r.id r.name r.position (r.subordinates ++ [mk id name position []])) ∧
    nodeAt (modifyAt (addSubordinate (mk id name position [])) t ref)
        (ref ++ [r.subordinates.length]) = some (mk id name position []) ∧
    labelAt t (ref ++ [r.subordinates.length]) = none ∧
    ∀ q, q ≠ ref ++ [r.subordinates.length] →
      labelAt (modifyAt (addSubordinate (mk id name position [])) t ref) q = labelAt t q := by
  refine ⟨?_, ?_, ?_, ?_⟩
  · rw [nodeAt_modifyAt_self, hr, Option.map_some', addSubordinate_eq]
  · rw [nodeAt_modifyAt_append, hr, Option.some_bind, addSubordinate_eq]
    simp [nodeAt_cons]
  · simp [labelAt, nodeAt_append, hr, nodeAt_cons]
  · intro q hq
    by_cases hp : ref <+: q
    · obtain ⟨s, rfl⟩ := hp
      simp only [labelAt]
      rw [nodeAt_modifyAt_append, nodeAt_append, hr, Option.some_bind, Option.some_bind,
        addSubordinate_eq]
      cases s with
      | nil => simp
      | cons j s =>
        rw [nodeAt_cons, nodeAt_cons, subordinates_mk]
        rcases Nat.lt_trichotomy j r.subordinates.length with hj | hj | hj
        · rw [List.getElem?_append_left hj]
        · subst hj
          cases s with
          | nil => exact absurd rfl hq
          | cons a s => simp [nodeAt_cons]
        · have h1 : (r.subordinates ++ [mk id name position []])[j]? = none := by
            apply List.getElem?_eq_none
            simp only [List.length_append, List.length_singleton]
            omega
          have h2 : r.subordinates[j]? = none := List.getElem?_eq_none (by omega)
          rw [h1, h2]
    · exact labelAt_modifyAt_off_path _ ref t q hp

end EmployeeNode

/-! ## C5: adding a subordinate appends one leaf -/

/-- C5: on a tree in which some node carries `supervisorId`, the
`ADD_SUBORDINATE` action returns true; with `r` the node `findById(supervisorId)`
returns, afterwards that node has its old fields and its old subordinates followed
by the new leaf `(id, name, position)` without subordinates; the leaf sits at a
place where the tree had no node; every other place of the tree carries the same
`(id, name, position)` as before, or is still empty. -/
theorem manageEmployee_add_appends_leaf (t : EmployeeNode) (id : Int)
    (name position : String) (supervisorId : Int)
    (h : ∃ e ∈ EmployeeNode.preorder t, e.2.id = supervisorId) :
    (manageEmployee (some t) .ADD_SUBORDINATE id name position supervisorId).ret = true ∧
    ∃ ref r t1, EmployeeNode.findById t supervisorId = some ref ∧
      EmployeeNode.nodeAt t ref = some r ∧
      (manageEmployee (some t) .ADD_SUBORDINATE id name position supervisorId).ceo = some t1 ∧
      EmployeeNode.nodeAt t1 ref
        = some (.mk r.id r.name r.position (r.subordinates ++ [.mk id name position []])) ∧
      EmployeeNode.nodeAt t1 (ref ++ [r.subordinates.length])
        = some (.mk id name position []) ∧
      EmployeeNode.labelAt t (ref ++ [r.subordinates.length]) = none ∧
      ∀ q, q ≠ ref ++ [r.subordinates.length] →
        EmployeeNode.labelAt t1 q = EmployeeNode.labelAt t q := by
  obtain ⟨ref, r, hf, hr, _⟩ :=
    EmployeeNode.findById_of_mem_ids t supervisorId (EmployeeNode.mem_ids_of_exists t _ h)
  simp only [manageEmployee, hf]
  exact ⟨trivial, ref, r, _, rfl, hr, rfl,
    EmployeeNode.modifyAt_addSubordinate_frame t ref r id name position hr⟩

/-- C5 witness: adding Eve (5, Intern) under Bob (2) in the scenario tree. -/
theorem manageEmployee_add_appends_leaf_witness :
    (∃ e ∈ EmployeeNode.preorder aliceTree, e.2.id = 2) ∧
    (manageEmployee (some aliceTree) .ADD_SUBORDINATE 5 "Eve" "Intern" 2).ret = true ∧
    ∃ ref r t1, EmployeeNode.findById aliceTree 2 = some ref ∧
      EmployeeNode.nodeAt aliceTree ref = some r ∧
      (manageEmployee (some aliceTree) .ADD_SUBORDINATE 5 "Eve" "Intern" 2).ceo = some t1 ∧
      EmployeeNode.nodeAt t1 ref
        = some (.mk r.id r.name r.position (r.subordinates ++ [.mk 5 "Eve" "Intern" []])) ∧
      EmployeeNode.nodeAt t1 (ref ++ [r.subordinates.length])
        = some (.mk 5 "Eve" "Intern" []) ∧
      EmployeeNode.labelAt aliceTree (ref ++ [r.subordinates.length]) = none ∧
      ∀ q, q ≠ ref ++ [r.subordinates.length] →
        EmployeeNode.labelAt t1 q = EmployeeNode.labelAt aliceTree q :=
  ⟨⟨([0], .mk 2 "Bob" "VP" [.mk 3 "Carol" "Eng" []]), by simp [aliceTree,
      EmployeeNode.preorder, EmployeeNode.preorderChildren], rfl⟩,
    manageEmployee_add_appends_leaf aliceTree 5 "Eve" "Intern" 2
      ⟨([0], .mk 2 "Bob" "VP" [.mk 3 "Carol" "Eng" []]), by simp [aliceTree,
        EmployeeNode.preorder, EmployeeNode.preorderChildren], rfl⟩⟩

/-! ## C7: `updateEmployee` changes one node's name and position -/

/-- C7: on a tree in which some node carries the id, `updateEmployee` returns
true; with `r` the node `findById(id)` returns, afterwards that node has the same
id and subordinates, name `newName` unless `newName` is empty, position
`newPosition` unless `newPosition` is empty; every other place of the tree carries
the same `(id, name, position)` as before, or is still empty. -/
theorem EmployeeNode.updateEmployee_modifies_found_node (t : EmployeeNode) (updateId : Int)
    (newName newPosition : String)
    (h : ∃ e ∈ EmployeeNode.preorder t, e.2.id = updateId) :
    (EmployeeNode.updateEmployee t updateId newName newPosition).2 = true ∧
    ∃ ref r, EmployeeNode.findById t updateId = some ref ∧
      EmployeeNode.nodeAt t ref = some r ∧
      EmployeeNode.nodeAt (EmployeeNode.updateEmployee t updateId newName newPosition).1 ref
        = some (.mk r.id (if newName ≠ "" then newName else r.name)
            (if newPosition ≠ "" then newPosition else r.position) r.subordinates) ∧
      ∀ q, q ≠ ref →
        EmployeeNode.labelAt (EmployeeNode.updateEmployee t updateId newName newPosition).1 q
          = EmployeeNode.labelAt t q := by
  obtain ⟨ref, r, hf, hr, _⟩ :=
    EmployeeNode.findById_of_mem_ids t updateId (EmployeeNode.mem_ids_of_exists t _ h)
  have hn : ∀ x, (EmployeeNode.setName newName x).subordinates = x.subordinates := by
    intro x; cases x; rfl
  have hp : ∀ x, (EmployeeNode.setPosition newPosition x).subordinates = x.subordinates := by
    intro x; cases x; rfl
  simp only [EmployeeNode.updateEmployee, hf]
  refine ⟨trivial, ref, r, rfl, hr, ?_, ?_⟩
  · by_cases h1 : newName = "" <;> by_cases h2 : newPosition = ""
    · simp [h1, h2, hr, EmployeeNode.eta]
    · cases r
      simp [h1, h2, hr, EmployeeNode.nodeAt_modifyAt_self, EmployeeNode.setPosition]
    · cases r
      simp [h1, h2, hr, EmployeeNode.nodeAt_modifyAt_self, EmployeeNode.setName]
    · cases r
      simp [h1, h2, hr, EmployeeNode.nodeAt_modifyAt_self, EmployeeNode.setName,
        EmployeeNode.setPosition]
  · intro q hq
    by_cases h1 : newName = "" <;> by_cases h2 : newPosition = ""
    · simp [h1, h2]
    · simp [h1, h2, EmployeeNode.labelAt_modifyAt_of_ne _ hp _ ref q hq]
    · simp [h1, h2, EmployeeNode.labelAt_modifyAt_of_ne _ hn _ ref q hq]
    · simp [h1, h2, EmployeeNode.labelAt_modifyAt_of_ne _ hp _ ref q hq,
        EmployeeNode.labelAt_modifyAt_of_ne _ hn _ ref q hq]

/-- C7 witness: renaming Carol (3) in the scenario tree, position left as is. -/
theorem EmployeeNode.updateEmployee_modifies_found_node_witness :
    (∃ e ∈ EmployeeNode.preorder aliceTree, e.2.id = 3) ∧
    (EmployeeNode.updateEmployee aliceTree 3 "Caroline" "").2 = true ∧
    ∃ ref r, EmployeeNode.findById aliceTree 3 = some ref ∧
      EmployeeNode.nodeAt aliceTree ref = some r ∧
      EmployeeNode.nodeAt (EmployeeNode.updateEmployee aliceTree 3 "Caroline" "").1 ref
        = some (.mk r.id (if "Caroline" ≠ "" then "Caroline" else r.name)
            (if ("" : String) ≠ "" then "" else r.position) r.subordinates) ∧
      ∀ q, q ≠ ref →
        EmployeeNode.labelAt (EmployeeNode.updateEmployee aliceTree 3 "Caroline" "").1 q
          = EmployeeNode.labelAt aliceTree q :=
  ⟨⟨([0, 0], .mk 3 "Carol" "Eng" []), by simp [aliceTree, EmployeeNode.preorder,
      EmployeeNode.preorderChildren], rfl⟩,
    EmployeeNode.updateEmployee_modifies_found_node aliceTree 3 "Caroline" ""
      ⟨([0, 0], .mk 3 "Carol" "Eng" []), by simp [aliceTree, EmployeeNode.preorder,
        EmployeeNode.preorderChildren], rfl⟩⟩

/-! ## C8: promoting or demoting to an empty position -/

/-- C8: for every tree and id, present or not, `promoteEmployee(id, "")` and
`demoteEmployee(id, "")` return false and leave the tree as it was. -/
theorem EmployeeNode.promote_demote_empty_position (t : EmployeeNode) (id : Int) :
    EmployeeNode.promoteEmployee t id "" = (t, false) ∧
      EmployeeNode.demoteEmployee t id "" = (t, false) := by
  constructor
  · unfold EmployeeNode.promoteEmployee
    cases EmployeeNode.findById t id <;> simp
  · unfold EmployeeNode.demoteEmployee
    cases EmployeeNode.findById t id <;> simp

/-! ## C9: `findAllByPosition` -/

namespace EmployeeNode

mutual
theorem findAllByPosition_eq (t : EmployeeNode) (self : NodeRef) (pos : String)
    (acc : List NodeRef) :
    findAllByPosition t self pos acc
      = acc ++ ((preorder t).filter (fun e => decide (e.2.position = pos))).map
          (fun e => self ++ e.1) := by
  cases t with
  | mk i n p subs =>
    have ih := findAllByPositionLoop_eq subs self 0 pos
    by_cases h : p = pos
    · simp [findAllByPosition, preorder, ih, h]
    · simp [findAllByPosition, preorder, ih, h]
theorem findAllByPositionLoop_eq (cs : List EmployeeNode) (self : NodeRef) (k : Nat)
    (pos : String) (acc : List NodeRef) :
    findAllByPositionLoop cs self k pos acc
      = acc ++ ((preorderChildren cs k).filter (fun e => decide (e.2.position = pos))).map
          (fun e => self ++ e.1) := by
  cases cs with
  | nil => simp [findAllByPositionLoop, preorderChildren]
  | cons c cs =>
    rw [findAllByPositionLoop, findAllByPositionLoop_eq cs self (k + 1) pos,
      findAllByPosition_eq c (self ++ [k]) pos acc]
    simp [preorderChildren, List.filter_map, Function.comp_def]
end

mutual
theorem preorder_refs_nodup (t : EmployeeNode) : ((preorder t).map Prod.fst).Nodup := by
  cases t with
  | mk i n p subs =>
    obtain ⟨h1, h2⟩ := preorderChildren_refs_nodup subs 0
    simp only [preorder, List.map_cons, List.nodup_cons]
    refine ⟨?_, h1⟩
    intro hm
    obtain ⟨j, rest, hj, _⟩ := h2 [] hm
    cases hj
theorem preorderChildren_refs_nodup (cs : List EmployeeNode) (k : Nat) :
    ((preorderChildren cs k).map Prod.fst).Nodup ∧
      ∀ ref ∈ (preorderChildren cs k).map Prod.fst, ∃ j rest, ref = j :: rest ∧ k ≤ j := by
  cases cs with
  | nil => simp [preorderChildren]
  | cons c cs =>
    have hc := preorder_refs_nodup c
    obtain ⟨h1, h2⟩ := preorderChildren_refs_nodup cs (k + 1)
    have hmap : (preorderChildren (c :: cs) k).map Prod.fst
        = ((preorder c).map Prod.fst).map (fun r => k :: r)
          ++ (preorderChildren cs (k + 1)).map Prod.fst := by
      simp [preorderChildren, Function.comp_def]
    rw [hmap]
    constructor
    · rw [List.nodup_append]
      refine ⟨hc.map (fun a b hab => by simpa using hab), h1, ?_⟩
      intro ref hr1 hr2
      obtain ⟨r, _, rfl⟩ := List.mem_map.1 hr1
      obtain ⟨j, rest, hj, hle⟩ := h2 _ hr2
      cases hj
      omega
    · intro ref hr
      rcases List.mem_append.1 hr with hr | hr
      · obtain ⟨r, _, rfl⟩ := List.mem_map.1 hr
        exact ⟨k, r, rfl, le_refl _⟩
      · obtain ⟨j, rest, hj, hle⟩ := h2 _ hr
        exact ⟨j, rest, hj, by omega⟩
end

end EmployeeNode

/-- C9: called with an empty result vector, `findAllByPosition` yields the
pointers to the nodes of the pre-order enumeration (parents before
subordinates, siblings in insertion order) whose position string equals the
query, in that order; a pointer is in the result exactly when it leads to a node
with that position; no pointer occurs twice; and the result is empty when no
node matches. -/
theorem EmployeeNode.findAllByPosition_preorder_matches (t : EmployeeNode) (position : String) :
    EmployeeNode.findAllByPosition t [] position []
      = ((EmployeeNode.preorder t).filter (fun e => decide (e.2.position = position))).map
          Prod.fst ∧
    (∀ ref, ref ∈ EmployeeNode.findAllByPosition t [] position [] ↔
      ∃ n, EmployeeNode.nodeAt t ref = some n ∧ n.position = position) ∧
    (EmployeeNode.findAllByPosition t [] position []).Nodup ∧
    ((∀ e ∈ EmployeeNode.preorder t, e.2.position ≠ position) →
      EmployeeNode.findAllByPosition t [] position [] = []) := by
  have heq : EmployeeNode.findAllByPosition t [] position []
      = ((EmployeeNode.preorder t).filter (fun e => decide (e.2.position = position))).map
          Prod.fst := by
    rw [EmployeeNode.findAllByPosition_eq]
    simp
  refine ⟨heq, ?_, ?_, ?_⟩
  · intro ref
    rw [heq]
    simp only [List.mem_map, List.mem_filter, decide_eq_true_eq]
    constructor
    · rintro ⟨e, ⟨he, hp⟩, rfl⟩
      exact ⟨e.2, EmployeeNode.nodeAt_of_mem_preorder t e.1 e.2 he, hp⟩
    · rintro ⟨n, hn, hp⟩
      exact ⟨(ref, n), ⟨EmployeeNode.mem_preorder_of_nodeAt ref t n hn, hp⟩, rfl⟩
  · rw [heq]
    exact ((List.filter_sublist _).map Prod.fst).nodup (EmployeeNode.preorder_refs_nodup t)
  · intro hall
    rw [heq, List.map_eq_nil_iff, List.filter_eq_nil_iff]
    intro e he
    simpa using hall e he

/-! ## C10: the exported text -/

theorem indentation_succ (n : Nat) : indentation (n + 1) = "  " ++ indentation n := by
  apply String.ext
  simp [indentation, Nat.mul_succ, List.replicate_succ]

theorem concatLines_append (a b : List String) :
    concatLines (a ++ b) = concatLines a ++ concatLines b := by
  induction a with
  | nil => simp [concatLines]
  | cons s a ih => simp [concatLines, ih, String.append_assoc]

namespace EmployeeNode

theorem writeIndent_eq (n : Nat) : ∀ out : String, writeIndent out n = out ++ indentation n := by
  induction n with
  | zero =>
    intro out
    have : indentation 0 = "" := rfl
    simp [writeIndent, this]
  | succ n ih =>
    intro out
    rw [writeIndent, ih, indentation_succ, String.append_assoc]

mutual
theorem writeEmployeeInfo_eq (t : EmployeeNode) (out : String) (level : Nat) :
    writeEmployeeInfo t out level = out ++ concatLines ((listing t level).map Entry.line) := by
  cases t with
  | mk i n p subs =>
    rw [writeEmployeeInfo, writeEmployeeInfoLoop_eq subs _ (level + 1), writeIndent_eq]
    simp [listing, concatLines, Entry.line, String.append_assoc]
theorem writeEmployeeInfoLoop_eq (cs : List EmployeeNode) (out : String) (level : Nat) :
    writeEmployeeInfoLoop cs out level
      = out ++ concatLines ((listingChildren cs level).map Entry.line) := by
  cases cs with
  | nil => simp [writeEmployeeInfoLoop, listingChildren, concatLines]
  | cons c cs =>
    rw [writeEmployeeInfoLoop, writeEmployeeInfoLoop_eq cs _ level,
      writeEmployeeInfo_eq c out level]
    simp [listingChildren, concatLines_append, String.append_assoc]
end

end EmployeeNode

/-- C10: the text `writeEmployeeInfo` writes to an empty stream from the root at
level 0 is the concatenation, over the pre-order listing (root at depth 0, each
subordinate one deeper), of one line per node: two spaces per depth level, then
`<position> (ID: <id>): <name>`, then a newline; nothing else is written. -/
theorem EmployeeNode.writeEmployeeInfo_text (t : EmployeeNode) :
    EmployeeNode.writeEmployeeInfo t "" 0
      = concatLines ((EmployeeNode.listing t 0).map Entry.line) := by
  rw [EmployeeNode.writeEmployeeInfo_eq]
  simp

/-! ## C6: sequences of add-subordinate calls -/

namespace EmployeeNode

theorem listingChildren_append (a b : List EmployeeNode) (d : Nat) :
    listingChildren (a ++ b) d = listingChildren a d ++ listingChildren b d := by
  induction a with
  | nil => simp [listingChildren]
  | cons c a ih => simp [listingChildren, ih]

theorem ids_eq (t : EmployeeNode) :
    ids t = t.id :: (listingChildren t.subordinates 0).map Entry.id := by
  rw [← listing_map_id t 0, listing_eq, List.map_cons,
    listingChildren_map_id _ 1 0, listingChildren_map_id _ 0 0]

theorem count_ids_modifyNth (g : EmployeeNode → EmployeeNode) (m : Nat) (x : Int)
    (subs : List EmployeeNode) :
    ∀ (k : Nat) (c : EmployeeNode), subs[k]? = some c →
      (ids (g c)).count x = (ids c).count x + m →
      ((listingChildren (modifyNth g subs k) 0).map Entry.id).count x
        = ((listingChildren subs 0).map Entry.id).count x + m := by
  induction subs with
  | nil => intro k c h; simp at h
  | cons a as ih =>
    intro k c h hg
    cases k with
    | zero =>
      simp only [List.getElem?_cons_zero, Option.some.injEq] at h
      subst h
      simp only [modifyNth, listingChildren, List.map_append, listing_map_id,
        List.count_append, hg]
      omega
    | succ k =>
      simp only [List.getElem?_cons_succ] at h
      have := ih k c h hg
      simp only [modifyNth, listingChildren, List.map_append, listing_map_id,
        List.count_append, this]
      omega

/-- Appending a leaf adds its id once to the ids of the tree. -/
theorem count_ids_addSubordinate (id : Int) (name position : String) (x : Int)
    (ref : NodeRef) :
    ∀ (t r : EmployeeNode), nodeAt t ref = some r →
      (ids (modifyAt (addSubordinate (mk id name position [])) t ref)).count x
        = (ids t).count x + [id].count x := by
  induction ref with
  | nil =>
    intro t r _
    rw [modifyAt_nil, addSubordinate_eq, ids_eq, ids_eq t]
    simp only [subordinates_mk, id_mk, listingChildren_append, listingChildren, listing,
      List.append_nil, List.map_append, List.map_cons, List.map_nil, List.count_cons,
      List.count_append, List.count_nil]
    omega
  | cons k ref ih =>
    intro t r hr
    rw [nodeAt_cons] at hr
    cases hc : t.subordinates[k]? with
    | none => simp [hc] at hr
    | some c =>
      simp only [hc, Option.some_bind] at hr
      rw [modifyAt_cons, ids_eq, ids_eq t, subordinates_mk, id_mk, List.count_cons,
        List.count_cons,
        count_ids_modifyNth _ ([id].count x) x t.subordinates k c hc (ih c r hr)]
      omega

theorem filter_eq_singleton_of_nodup_map {α : Type} (f : α → Int) :
    ∀ (l : List α) (a : α), (l.map f).Nodup → a ∈ l →
      l.filter (fun e => decide (f e = f a)) = [a] := by
  intro l
  induction l with
  | nil => intro a _ h; cases h
  | cons b l ih =>
    intro a hnd ha
    rw [List.map_cons, List.nodup_cons] at hnd
    rcases List.mem_cons.1 ha with rfl | ha
    · have : l.filter (fun e => decide (f e = f a)) = [] := by
        rw [List.filter_eq_nil_iff]
        intro e he
        simp only [decide_eq_true_eq]
        intro heq
        exact hnd.1 (heq ▸ List.mem_map_of_mem f he)
      simp [List.filter_cons, this]
    · have hne : f b ≠ f a := by
        intro heq
        exact hnd.1 (heq ▸ List.mem_map_of_mem f ha)
      simp [List.filter_cons, hne, ih a hnd.2 ha]

end EmployeeNode

/-- Running valid add requests: all succeed, the ids of the result are the old
ids plus the requested ones, old labels stay where they are, and every requested
label is somewhere in the result. -/
theorem runAdds_invariant (calls : List AddCall) :
    ∀ t : EmployeeNode, parentsPresent (some t) calls →
      ∃ t1, (runAdds (some t) calls).1 = some t1 ∧
        (runAdds (some t) calls).2 = calls.map (fun _ => true) ∧
        (∀ x, (EmployeeNode.ids t1).count x
          = (EmployeeNode.ids t).count x + (calls.map AddCall.id).count x) ∧
        (∀ ref lab, EmployeeNode.labelAt t ref = some lab →
          EmployeeNode.labelAt t1 ref = some lab) ∧
        (∀ c ∈ calls, ∃ ref, EmployeeNode.labelAt t1 ref = some (c.id, c.name, c.position)) := by
  induction calls with
  | nil =>
    intro t _
    exact ⟨t, rfl, rfl, by simp, fun _ _ h => h, by simp⟩
  | cons c cs ih =>
    intro t hpar
    obtain ⟨hsup, hrest⟩ := hpar
    obtain ⟨ref, r, hf, hr, _⟩ := EmployeeNode.findById_of_mem_ids t c.supervisorId hsup
    have hm : manageEmployee (some t) .ADD_SUBORDINATE c.id c.name c.position c.supervisorId
        = ⟨some (EmployeeNode.modifyAt
            (EmployeeNode.addSubordinate (.mk c.id c.name c.position [])) t ref), true,
          "Subordinate added successfully.\n"⟩ := by
      simp only [manageEmployee, hf]
    rw [hm] at hrest
    obtain ⟨_, hleaf, hfree, hframe⟩ :=
      EmployeeNode.modifyAt_addSubordinate_frame t ref r c.id c.name c.position hr
    obtain ⟨t1, h1, h2, h3, h4, h5⟩ := ih _ hrest
    have hkeep : ∀ q lab, EmployeeNode.labelAt t q = some lab →
        EmployeeNode.labelAt (EmployeeNode.modifyAt
          (EmployeeNode.addSubordinate (.mk c.id c.name c.position [])) t ref) q = some lab := by
      intro q lab hq
      have hne : q ≠ ref ++ [r.subordinates.length] := by
        rintro rfl
        rw [hfree] at hq
        cases hq
      rw [hframe q hne, hq]
    refine ⟨t1, ?_, ?_, ?_, ?_, ?_⟩
    · simp only [runAdds, hm, h1]
    · simp only [runAdds, hm, h2, List.map_cons]
    · intro x
      rw [h3 x, EmployeeNode.count_ids_addSubordinate c.id c.name c.position x ref t r hr]
      simp only [List.map_cons, List.count_cons, List.count_nil]
      omega
    · intro q lab hq
      exact h4 q lab (hkeep q lab hq)
    · intro c1 hc1
      rcases List.mem_cons.1 hc1 with rfl | hc1
      · refine ⟨ref ++ [r.subordinates.length], h4 _ _ ?_⟩
        simp [EmployeeNode.labelAt, hleaf]
      · exact h5 c1 hc1

/-- C6 (as stated, refuted): from a single-node root, two add requests with the
same new id 2 both name a present parent and both succeed, yet `findById(2)`
returns the node added first (Bob, VP), not the node added with Bobby, Eng. -/
theorem runAdds_duplicate_id_finds_first :
    parentsPresent (some soloTree) duplicateCalls ∧
    (runAdds (some soloTree) duplicateCalls).2 = [true, true] ∧
    (runAdds (some soloTree) duplicateCalls).1 = some duplicateTree ∧
    EmployeeNode.findById duplicateTree 2 = some [0] ∧
    EmployeeNode.labelAt duplicateTree [0] = some (2, "Bob", "VP") ∧
    EmployeeNode.labelAt duplicateTree [0] ≠ some (2, "Bobby", "Eng") := by
  refine ⟨⟨by decide, by decide, trivial⟩, by decide, rfl, by decide, by decide, by decide⟩

/-- C6 (amended): starting from a single-node root, for every sequence of
add-subordinate calls in which each call's parent id is present in the tree at
the time of the call and the new ids are pairwise distinct and differ from the
root's id, every call returns true, and afterwards, for each added
`(id, name, position)`, `findById(id)` returns a node with that id, name and
position, and that node is the only entry of the pre-order enumeration with
that id. -/
theorem runAdds_finds_every_added_node (rootId : Int) (rootName rootPosition : String)
    (calls : List AddCall)
    (hparents : parentsPresent (some (.mk rootId rootName rootPosition [])) calls)
    (hdistinct : (rootId :: calls.map AddCall.id).Nodup) :
    (runAdds (some (.mk rootId rootName rootPosition [])) calls).2
      = calls.map (fun _ => true) ∧
    ∃ t1, (runAdds (some (.mk rootId rootName rootPosition [])) calls).1 = some t1 ∧
      ∀ c ∈ calls, ∃ ref n, EmployeeNode.findById t1 c.id = some ref ∧
        EmployeeNode.nodeAt t1 ref = some n ∧
        n.id = c.id ∧ n.name = c.name ∧ n.position = c.position ∧
        (EmployeeNode.preorder t1).filter (fun e => decide (e.2.id = c.id)) = [(ref, n)] := by
  obtain ⟨t1, h1, h2, h3, _, h5⟩ := runAdds_invariant calls _ hparents
  refine ⟨h2, t1, h1, ?_⟩
  have hnd : (EmployeeNode.ids t1).Nodup := by
    rw [List.nodup_iff_count_le_one]
    intro x
    have := List.nodup_iff_count_le_one.1 hdistinct x
    rw [h3 x]
    simpa [EmployeeNode.ids, EmployeeNode.preorder, EmployeeNode.preorderChildren,
      List.count_cons, Nat.add_comm] using this
  intro c hc
  obtain ⟨ref, hlab⟩ := h5 c hc
  cases hn : EmployeeNode.nodeAt t1 ref with
  | none => simp [EmployeeNode.labelAt, hn] at hlab
  | some n =>
    simp only [EmployeeNode.labelAt, hn, Option.map_some', Option.some.injEq,
      Prod.mk.injEq] at hlab
    obtain ⟨e1, e2, e3⟩ := hlab
    have hmem := EmployeeNode.mem_preorder_of_nodeAt ref t1 n hn
    have hin : c.id ∈ EmployeeNode.ids t1 := List.mem_map.2 ⟨(ref, n), hmem, e1⟩
    obtain ⟨ref1, n1, hf, hn1, hid1⟩ := EmployeeNode.findById_of_mem_ids t1 c.id hin
    have hmem1 := EmployeeNode.mem_preorder_of_nodeAt ref1 t1 n1 hn1
    have heq : (ref1, n1) = (ref, n) :=
      List.inj_on_of_nodup_map hnd hmem1 hmem (by simp [hid1, e1])
    cases heq
    refine ⟨ref, n, hf, hn, e1, e2, e3, ?_⟩
    have := EmployeeNode.filter_eq_singleton_of_nodup_map (fun e : NodeRef × EmployeeNode =>
      e.2.id) (EmployeeNode.preorder t1) (ref, n) hnd hmem
    simpa [e1] using this

/-- C6 witness: the scenario of the specification, Bob (2) added under 1 and
Carol (3) added under 2. -/
theorem runAdds_finds_every_added_node_witness :
    parentsPresent (some (.mk 1 "Alice" "CEO" [])) scenarioCalls ∧
    (1 :: scenarioCalls.map AddCall.id).Nodup ∧
    (runAdds (some (.mk 1 "Alice" "CEO" [])) scenarioCalls).2
      = scenarioCalls.map (fun _ => true) ∧
    ∃ t1, (runAdds (some (.mk 1 "Alice" "CEO" [])) scenarioCalls).1 = some t1 ∧
      ∀ c ∈ scenarioCalls, ∃ ref n, EmployeeNode.findById t1 c.id = some ref ∧
        EmployeeNode.nodeAt t1 ref = some n ∧
        n.id = c.id ∧ n.name = c.name ∧ n.position = c.position ∧
        (EmployeeNode.preorder t1).filter (fun e => decide (e.2.id = c.id)) = [(ref, n)] :=
  ⟨⟨by decide, by decide, trivial⟩, by decide,
    runAdds_finds_every_added_node 1 "Alice" "CEO" scenarioCalls
      ⟨by decide, by decide, trivial⟩ (by decide)⟩

/-! ## C11: actions on a company that does not exist -/

/-- C11: with a null `ceo`, `manageEmployee` returns false for `ADD_SUBORDINATE`,
`PROMOTE`, `DEMOTE` and `DELETE`, for all argument values, and leaves `ceo` null;
for `UPDATE` it writes "Employee not found." and returns true. -/
theorem manageEmployee_null_ceo (id : Int) (newName newPosition : String)
    (supervisorId : Int) :
    (manageEmployee none .ADD_SUBORDINATE id newName newPosition supervisorId).ret = false ∧
    (manageEmployee none .PROMOTE id newName newPosition supervisorId).ret = false ∧
    (manageEmployee none .DEMOTE id newName newPosition supervisorId).ret = false ∧
    (manageEmployee none .DELETE id newName newPosition supervisorId).ret = false ∧
    (∀ action, (manageEmployee none action id newName newPosition supervisorId).ceo = none) ∧
    (manageEmployee none .UPDATE id newName newPosition supervisorId).cout
      = "Employee not found.\n" ∧
    (manageEmployee none .UPDATE id newName newPosition supervisorId).ret = true := by
  refine ⟨rfl, rfl, rfl, rfl, ?_, rfl, rfl⟩
  intro action
  cases action <;> rfl

/-! ## C12: when adding a subordinate fails -/

/-- C12: the `ADD_SUBORDINATE` action returns false exactly when `ceo` is null or
no node of the tree carries `supervisorId`; in that case `ceo` is left as it
was, so no node is created. -/
theorem manageEmployee_add_fails_iff (ceo : Option EmployeeNode) (id : Int)
    (newName newPosition : String) (supervisorId : Int) :
    ((manageEmployee ceo .ADD_SUBORDINATE id newName newPosition supervisorId).ret = false ↔
      (ceo = none ∨ ∃ t, ceo = some t ∧ ∀ e ∈ EmployeeNode.preorder t, e.2.id ≠ supervisorId)) ∧
    ((manageEmployee ceo .ADD_SUBORDINATE id newName newPosition supervisorId).ret = false →
      (manageEmployee ceo .ADD_SUBORDINATE id newName newPosition supervisorId).ceo = ceo) := by
  cases ceo with
  | none => simp [manageEmployee]
  | some t =>
    cases hf : EmployeeNode.findById t supervisorId with
    | none =>
      have hnone := (EmployeeNode.findById_eq_none_iff t supervisorId).1 hf
      simp only [manageEmployee, hf, true_iff, true_and, Option.some.injEq, false_or,
        exists_eq_left', implies_true, and_true, reduceCtorEq]
      intro e he heq
      exact hnone (List.mem_map.2 ⟨e, he, heq⟩)
    | some ref =>
      obtain ⟨n, hn, hid⟩ := EmployeeNode.findById_some_spec t supervisorId ref hf
      simp only [manageEmployee, hf, Bool.true_eq_false, false_iff, false_implies, and_true,
        reduceCtorEq, false_or, Option.some.injEq, exists_eq_left', not_forall]
      exact ⟨(ref, n), hn, by simpa using hid⟩

/-! ## C13, C14: `updateEmployee` with empty fields, and when it fails -/

/-- C13: when some node of the tree carries the id, `updateEmployee(id, "", "")`
returns true and the tree after the call is the tree before it. -/
theorem EmployeeNode.updateEmployee_empty_fields (t : EmployeeNode) (updateId : Int)
    (h : ∃ e ∈ EmployeeNode.preorder t, e.2.id = updateId) :
    EmployeeNode.updateEmployee t updateId "" "" = (t, true) := by
  obtain ⟨ref, r, hf, _, _⟩ :=
    EmployeeNode.findById_of_mem_ids t updateId (EmployeeNode.mem_ids_of_exists t _ h)
  simp [EmployeeNode.updateEmployee, hf]

/-- C13 witness: `updateEmployee(3, "", "")` on the scenario tree. -/
theorem EmployeeNode.updateEmployee_empty_fields_witness :
    (∃ e ∈ EmployeeNode.preorder aliceTree, e.2.id = 3) ∧
      EmployeeNode.updateEmployee aliceTree 3 "" "" = (aliceTree, true) :=
  ⟨⟨([0, 0], .mk 3 "Carol" "Eng" []), by simp [aliceTree, EmployeeNode.preorder,
      EmployeeNode.preorderChildren], rfl⟩,
    EmployeeNode.updateEmployee_empty_fields aliceTree 3
      ⟨([0, 0], .mk 3 "Carol" "Eng" []), by simp [aliceTree, EmployeeNode.preorder,
        EmployeeNode.preorderChildren], rfl⟩⟩

/-- C14: for all arguments, `updateEmployee` returns false exactly when no node of
the tree carries the id, and in that case the tree after the call is the tree
before it. -/
theorem EmployeeNode.updateEmployee_fails_iff (t : EmployeeNode) (updateId : Int)
    (newName newPosition : String) :
    ((EmployeeNode.updateEmployee t updateId newName newPosition).2 = false ↔
      ∀ e ∈ EmployeeNode.preorder t, e.2.id ≠ updateId) ∧
    ((EmployeeNode.updateEmployee t updateId newName newPosition).2 = false →
      (EmployeeNode.updateEmployee t updateId newName newPosition).1 = t) := by
  cases hf : EmployeeNode.findById t updateId with
  | none =>
    have hnone := (EmployeeNode.findById_eq_none_iff t updateId).1 hf
    simp only [EmployeeNode.updateEmployee, hf, true_iff, implies_true, and_true]
    intro e he heq
    exact hnone (List.mem_map.2 ⟨e, he, heq⟩)
  | some ref =>
    obtain ⟨n, hn, hid⟩ := EmployeeNode.findById_some_spec t updateId ref hf
    simp only [EmployeeNode.updateEmployee, hf, Bool.true_eq_false, false_iff, false_implies,
      and_true, not_forall]
    exact ⟨(ref, n), hn, by simpa using hid⟩

/-! ## C15, C16: promote, demote and update -/

/-- C15: for every tree, id and non-empty `newPosition`, `promoteEmployee(id,
newPosition)` returns the same flag and leaves the same tree as
`updateEmployee(id, "", newPosition)`. -/
theorem EmployeeNode.promoteEmployee_eq_updateEmployee (t : EmployeeNode) (id : Int)
    (newPosition : String) (h : newPosition ≠ "") :
    EmployeeNode.promoteEmployee t id newPosition
      = EmployeeNode.updateEmployee t id "" newPosition := by
  unfold EmployeeNode.promoteEmployee EmployeeNode.updateEmployee
  cases EmployeeNode.findById t id <;> simp [h]

/-- C15 witness: promoting Carol (3) to "Lead" in the scenario tree. -/
theorem EmployeeNode.promoteEmployee_eq_updateEmployee_witness :
    ("Lead" : String) ≠ "" ∧
      EmployeeNode.promoteEmployee aliceTree 3 "Lead"
        = EmployeeNode.updateEmployee aliceTree 3 "" "Lead" :=
  ⟨by decide, EmployeeNode.promoteEmployee_eq_updateEmployee aliceTree 3 "Lead" (by decide)⟩

/-- C16: for every tree, id and `newPosition`, empty or not, `promoteEmployee` and
`demoteEmployee` return the same flag and leave the same tree. -/
theorem EmployeeNode.promoteEmployee_eq_demoteEmployee (t : EmployeeNode) (id : Int)
    (newPosition : String) :
    EmployeeNode.promoteEmployee t id newPosition
      = EmployeeNode.demoteEmployee t id newPosition := by
  unfold EmployeeNode.promoteEmployee EmployeeNode.demoteEmployee
  cases EmployeeNode.findById t id <;> rfl

/-! ## C17: console display and file export write the same characters -/

namespace EmployeeNode

mutual
theorem displayHierarchy_eq (t : EmployeeNode) (out : String) (level : Nat) :
    displayHierarchy t out level = writeEmployeeInfo t out level := by
  cases t with
  | mk i n p subs =>
    rw [displayHierarchy, writeEmployeeInfo, displayHierarchyLoop_eq subs _ (level + 1)]
theorem displayHierarchyLoop_eq (cs : List EmployeeNode) (out : String) (level : Nat) :
    displayHierarchyLoop cs out level = writeEmployeeInfoLoop cs out level := by
  cases cs with
  | nil => rw [displayHierarchyLoop, writeEmployeeInfoLoop]
  | cons c cs =>
    rw [displayHierarchyLoop, writeEmployeeInfoLoop, displayHierarchy_eq c out level,
      displayHierarchyLoop_eq cs _ level]
end

end EmployeeNode

/-- C17: for every tree and starting level, and whatever both streams held
before, the characters `displayHierarchy` appends to the console are the
characters `writeEmployeeInfo` appends to the file stream. -/
theorem EmployeeNode.displayHierarchy_same_text (t : EmployeeNode) (level : Nat) :
    EmployeeNode.displayHierarchy t "" level = EmployeeNode.writeEmployeeInfo t "" level ∧
    ∀ before : String,
      EmployeeNode.displayHierarchy t before level
        = before ++ concatLines ((EmployeeNode.listing t level).map Entry.line) ∧
      EmployeeNode.writeEmployeeInfo t before level
        = before ++ concatLines ((EmployeeNode.listing t level).map Entry.line) := by
  refine ⟨EmployeeNode.displayHierarchy_eq t "" level, fun before => ?_⟩
  rw [EmployeeNode.displayHierarchy_eq, EmployeeNode.writeEmployeeInfo_eq]
  exact ⟨rfl, rfl⟩

/-! ## C19: adding a fresh id and deleting it again -/

namespace EmployeeNode

theorem deleteEmployeeLoop_of_absent (cs : List EmployeeNode) (q : Int)
    (h : q ∉ (listingChildren cs 0).map Entry.id) : deleteEmployeeLoop cs q = (cs, false) := by
  cases hb : (deleteEmployeeLoop cs q).2 with
  | false => exact Prod.ext (deleteEmployeeLoop_false cs q hb).1 hb
  | true =>
    exfalso
    obtain ⟨pre, j, ref, c, r, post, _, _, hid, hl, _, _, _⟩ := deleteEmployeeLoop_true cs q 0 hb
    apply h
    rw [listingChildren_map_id cs 0 0, ← listingChildren_map_id cs (0 + 1) 0, hl, listing_eq]
    simp [hid]

theorem deleteEmployee_of_absent (t : EmployeeNode) (q : Int) (h : q ∉ ids t) :
    deleteEmployee t q = (t, false) := by
  rw [ids_eq] at h
  have h1 : q ∉ (listingChildren t.subordinates 0).map Entry.id :=
    fun hm => h (List.mem_cons_of_mem _ hm)
  cases t with
  | mk i n p subs =>
    simp only [subordinates_mk] at h1
    simp only [deleteEmployee, deleteEmployeeLoop_of_absent subs q h1]

theorem deleteEmployeeLoop_append_leaf (leaf : EmployeeNode) (q : Int) (hleaf : leaf.id = q) :
    ∀ subs : List EmployeeNode, q ∉ (listingChildren subs 0).map Entry.id →
      deleteEmployeeLoop (subs ++ [leaf]) q = (subs, true) := by
  intro subs
  induction subs with
  | nil => intro _; simp [deleteEmployeeLoop, hleaf]
  | cons c cs ih =>
    intro h
    simp only [listingChildren, List.map_append, List.mem_append, not_or, listing_map_id] at h
    have hc : c.id ≠ q := fun e => h.1 (e ▸ id_mem_ids c)
    simp [deleteEmployeeLoop, hc, deleteEmployee_of_absent c q h.1, ih h.2]

theorem deleteEmployeeLoop_modifyNth (g : EmployeeNode → EmployeeNode) (q : Int) :
    ∀ (subs : List EmployeeNode) (k : Nat) (c : EmployeeNode), subs[k]? = some c →
      q ∉ (listingChildren subs 0).map Entry.id → (g c).id = c.id →
      deleteEmployee (g c) q = (c, true) →
      deleteEmployeeLoop (modifyNth g subs k) q = (subs, true) := by
  intro subs
  induction subs with
  | nil => intro k c h; simp at h
  | cons a as ih =>
    intro k c hk h hgid hg
    simp only [listingChildren, List.map_append, List.mem_append, not_or, listing_map_id] at h
    have ha : a.id ≠ q := fun e => h.1 (e ▸ id_mem_ids a)
    cases k with
    | zero =>
      simp only [List.getElem?_cons_zero, Option.some.injEq] at hk
      subst hk
      simp [modifyNth, deleteEmployeeLoop, hgid, ha, hg]
    | succ k =>
      simp only [List.getElem?_cons_succ] at hk
      simp [modifyNth, deleteEmployeeLoop, ha, deleteEmployee_of_absent a q h.1,
        ih k c hk h.2 hgid hg]

theorem modifyAt_id (f : EmployeeNode → EmployeeNode) (hf : ∀ r, (f r).id = r.id)
    (t : EmployeeNode) (ref : NodeRef) : (modifyAt f t ref).id = t.id := by
  cases ref with
  | nil => simp [hf]
  | cons k ref => rw [modifyAt_cons]; rfl

/-- Deleting the id of a leaf that was just appended, when no other node carries
that id, gives back the tree from before the append. -/
theorem deleteEmployee_modifyAt_addSubordinate (q : Int) (name position : String)
    (ref : NodeRef) :
    ∀ (t r : EmployeeNode), nodeAt t ref = some r → q ∉ ids t →
      deleteEmployee (modifyAt (addSubordinate (mk q name position [])) t ref) q
        = (t, true) := by
  induction ref with
  | nil =>
    intro t r _ h
    rw [ids_eq] at h
    have h1 : q ∉ (listingChildren t.subordinates 0).map Entry.id :=
      fun hm => h (List.mem_cons_of_mem _ hm)
    rw [modifyAt_nil, addSubordinate_eq, deleteEmployee,
      deleteEmployeeLoop_append_leaf (mk q name position []) q (id_mk q name position []) _ h1]
    simp [eta]
  | cons k ref ih =>
    intro t r hr h
    rw [nodeAt_cons] at hr
    cases hc : t.subordinates[k]? with
    | none => simp [hc] at hr
    | some c =>
      simp only [hc, Option.some_bind] at hr
      rw [ids_eq] at h
      have h1 : q ∉ (listingChildren t.subordinates 0).map Entry.id :=
        fun hm => h (List.mem_cons_of_mem _ hm)
      have hcq : q ∉ ids c := by
        intro hm
        apply h1
        obtain ⟨x, hx, hxid⟩ := (mem_ids_iff_listing c 0 q).1 hm
        have hsub : ∀ (l : List EmployeeNode) (j : Nat), l[j]? = some c →
            x ∈ listingChildren l 0 := by
          intro l
          induction l with
          | nil => intro j hj; simp at hj
          | cons a l ihl =>
            intro j hj
            cases j with
            | zero =>
              simp only [List.getElem?_cons_zero, Option.some.injEq] at hj
              subst hj
              simp [listingChildren, hx]
            | succ j =>
              simp only [List.getElem?_cons_succ] at hj
              simp [listingChildren, ihl j hj]
        exact List.mem_map.2 ⟨x, hsub _ k hc, hxid⟩
      have hgid : (modifyAt (addSubordinate (mk q name position [])) c ref).id = c.id :=
        modifyAt_id _ (fun x => by rw [addSubordinate_eq]; rfl) c ref
      rw [modifyAt_cons, deleteEmployee,
        deleteEmployeeLoop_modifyNth _ q t.subordinates k c hc h1 hgid (ih c r hr hcq)]
      simp [eta]

end EmployeeNode

/-- C19: on a tree in which some node carries `supervisorId` and no node carries
`id`, the `ADD_SUBORDINATE` action returns true, and `deleteEmployee(id)` on the
tree it leaves returns true and gives back the tree from before the add. -/
theorem manageEmployee_add_then_delete (t : EmployeeNode) (id : Int)
    (name position : String) (supervisorId : Int)
    (hsup : ∃ e ∈ EmployeeNode.preorder t, e.2.id = supervisorId)
    (hfresh : ∀ e ∈ EmployeeNode.preorder t, e.2.id ≠ id) :
    (manageEmployee (some t) .ADD_SUBORDINATE id name position supervisorId).ret = true ∧
    ∃ t1, (manageEmployee (some t) .ADD_SUBORDINATE id name position supervisorId).ceo
        = some t1 ∧
      EmployeeNode.deleteEmployee t1 id = (t, true) := by
  obtain ⟨ref, r, hf, hr, _⟩ :=
    EmployeeNode.findById_of_mem_ids t supervisorId (EmployeeNode.mem_ids_of_exists t _ hsup)
  have hq : id ∉ EmployeeNode.ids t := by
    intro hm
    obtain ⟨e, he, heq⟩ := List.mem_map.1 hm
    exact hfresh e he heq
  simp only [manageEmployee, hf]
  exact ⟨trivial, _, rfl,
    EmployeeNode.deleteEmployee_modifyAt_addSubordinate id name position ref t r hr hq⟩

/-- C19 witness: adding Eve (5) under Bob (2) in the two-branch company and
deleting 5 again. -/
theorem manageEmployee_add_then_delete_witness :
    (∃ e ∈ EmployeeNode.preorder branchTree, e.2.id = 2) ∧
    (∀ e ∈ EmployeeNode.preorder branchTree, e.2.id ≠ 5) ∧
    (manageEmployee (some branchTree) .ADD_SUBORDINATE 5 "Eve" "Intern" 2).ret = true ∧
    ∃ t1, (manageEmployee (some branchTree) .ADD_SUBORDINATE 5 "Eve" "Intern" 2).ceo
        = some t1 ∧
      EmployeeNode.deleteEmployee t1 5 = (branchTree, true) :=
  ⟨⟨([0], .mk 2 "Bob" "VP" [.mk 3 "Carol" "Eng" []]), by simp [branchTree,
      EmployeeNode.preorder, EmployeeNode.preorderChildren], rfl⟩,
    by simp [branchTree, EmployeeNode.preorder, EmployeeNode.preorderChildren],
    manageEmployee_add_then_delete branchTree 5 "Eve" "Intern" 2
      ⟨([0], .mk 2 "Bob" "VP" [.mk 3 "Carol" "Eng" []]), by simp [branchTree,
        EmployeeNode.preorder, EmployeeNode.preorderChildren], rfl⟩
      (by simp [branchTree, EmployeeNode.preorder, EmployeeNode.preorderChildren])⟩

/-! ## C20: pairwise distinct ids stay pairwise distinct -/

namespace EmployeeNode

theorem listingChildren_ids_modifyNth (g : EmployeeNode → EmployeeNode)
    (hg : ∀ c, ids (g c) = ids c) :
    ∀ (subs : List EmployeeNode) (k : Nat),
      (listingChildren (modifyNth g subs k) 0).map Entry.id
        = (listingChildren subs 0).map Entry.id := by
  intro subs
  induction subs with
  | nil => intro k; simp [modifyNth]
  | cons a as ih =>
    intro k
    cases k with
    | zero => simp [modifyNth, listingChildren, listing_map_id, hg]
    | succ k => simp [modifyNth, listingChildren, listing_map_id, ih k]

/-- A write that keeps the written node's id and subordinates keeps the ids of
the tree. -/
theorem ids_modifyAt (f : EmployeeNode → EmployeeNode) (hid : ∀ r, (f r).id = r.id)
    (hsub : ∀ r, (f r).subordinates = r.subordinates) (ref : NodeRef) :
    ∀ t : EmployeeNode, ids (modifyAt f t ref) = ids t := by
  induction ref with
  | nil =>
    intro t
    rw [modifyAt_nil, ids_eq, ids_eq t, hid, hsub]
  | cons k ref ih =>
    intro t
    rw [modifyAt_cons, ids_eq, ids_eq t, subordinates_mk, id_mk,
      listingChildren_ids_modifyNth _ ih]

theorem ids_setName (newName : String) (t : EmployeeNode) (ref : NodeRef) :
    ids (modifyAt (setName newName) t ref) = ids t :=
  ids_modifyAt _ (fun r => by cases r; rfl) (fun r => by cases r; rfl) ref t

theorem ids_setPosition (newPosition : String) (t : EmployeeNode) (ref : NodeRef) :
    ids (modifyAt (setPosition newPosition) t ref) = ids t :=
  ids_modifyAt _ (fun r => by cases r; rfl) (fun r => by cases r; rfl) ref t

theorem ids_updateEmployee (t : EmployeeNode) (q : Int) (newName newPosition : String) :
    ids (updateEmployee t q newName newPosition).1 = ids t := by
  unfold updateEmployee
  cases findById t q with
  | none => rfl
  | some ref =>
    by_cases h1 : newName = "" <;> by_cases h2 : newPosition = "" <;>
      simp [h1, h2, ids_setName, ids_setPosition]

theorem ids_promoteEmployee (t : EmployeeNode) (q : Int) (newPosition : String) :
    ids (promoteEmployee t q newPosition).1 = ids t := by
  unfold promoteEmployee
  cases findById t q with
  | none => rfl
  | some ref => by_cases h2 : newPosition = "" <;> simp [h2, ids_setPosition]

theorem ids_demoteEmployee (t : EmployeeNode) (q : Int) (newPosition : String) :
    ids (demoteEmployee t q newPosition).1 = ids t := by
  unfold demoteEmployee
  cases findById t q with
  | none => rfl
  | some ref => by_cases h2 : newPosition = "" <;> simp [h2, ids_setPosition]

/-- The ids after `deleteEmployee` are the ids before with some of them left
out. -/
theorem ids_deleteEmployee_sublist (t : EmployeeNode) (q : Int) :
    (ids (deleteEmployee t q).1).Sublist (ids t) := by
  cases hb : (deleteEmployee t q).2 with
  | false => rw [(deleteEmployee_false t q hb).1]
  | true =>
    obtain ⟨pre, ref, r, post, _, _, _, hl, hl1, _, _⟩ := deleteEmployee_true t q 0 hb
    obtain ⟨f1, _, _⟩ := deleteEmployee_fields t q
    have hids : ids t = t.id :: (pre.map Entry.id ++ ids r ++ post.map Entry.id) := by
      rw [← listing_map_id t 0, listing_eq, List.map_cons, hl]
      simp [listing_map_id]
    have hids1 : ids (deleteEmployee t q).1 = t.id :: (pre.map Entry.id ++ post.map Entry.id) := by
      rw [← listing_map_id _ 0, listing_eq, List.map_cons, hl1, f1]
      simp
    rw [hids, hids1]
    refine List.Sublist.cons₂ _ ?_
    exact List.Sublist.append ((List.sublist_append_left _ _)) (List.Sublist.refl _)

end EmployeeNode

/-- C20: if the ids of a tree are pairwise distinct, they are pairwise distinct
after `deleteEmployee`, `updateEmployee`, `promoteEmployee` and `demoteEmployee`
with any arguments, and after an `ADD_SUBORDINATE` action whose new id no node of
the tree carries. -/
theorem EmployeeNode.ids_stay_distinct (t : EmployeeNode) (id : Int)
    (newName newPosition : String) (supervisorId : Int)
    (h : (EmployeeNode.ids t).Nodup) :
    (EmployeeNode.ids (EmployeeNode.deleteEmployee t id).1).Nodup ∧
    (EmployeeNode.ids (EmployeeNode.updateEmployee t id newName newPosition).1).Nodup ∧
    (EmployeeNode.ids (EmployeeNode.promoteEmployee t id newPosition).1).Nodup ∧
    (EmployeeNode.ids (EmployeeNode.demoteEmployee t id newPosition).1).Nodup ∧
    (id ∉ EmployeeNode.ids t →
      ∃ t1, (manageEmployee (some t) .ADD_SUBORDINATE id newName newPosition supervisorId).ceo
          = some t1 ∧ (EmployeeNode.ids t1).Nodup) := by
  refine ⟨(EmployeeNode.ids_deleteEmployee_sublist t id).nodup h, ?_, ?_, ?_, ?_⟩
  · rw [EmployeeNode.ids_updateEmployee]; exact h
  · rw [EmployeeNode.ids_promoteEmployee]; exact h
  · rw [EmployeeNode.ids_demoteEmployee]; exact h
  · intro hfresh
    cases hf : EmployeeNode.findById t supervisorId with
    | none => exact ⟨t, by simp only [manageEmployee, hf], h⟩
    | some ref =>
      obtain ⟨r, hr, _⟩ := EmployeeNode.findById_some_spec t supervisorId ref hf
      have hn := EmployeeNode.nodeAt_of_mem_preorder t ref r hr
      simp only [manageEmployee, hf]
      refine ⟨_, rfl, ?_⟩
      rw [List.nodup_iff_count_le_one]
      intro x
      rw [EmployeeNode.count_ids_addSubordinate id newName newPosition x ref t r hn]
      have h1 := List.nodup_iff_count_le_one.1 h x
      by_cases hx : x = id
      · subst hx
        rw [List.count_eq_zero_of_not_mem hfresh]
        simp
      · have : [id].count x = 0 := by
          rw [List.count_eq_zero]
          simpa using hx
        omega

/-- C20 witness: the scenario tree, with id 5 for every operation and Bob (2) as
the supervisor of the add. -/
theorem EmployeeNode.ids_stay_distinct_witness :
    (EmployeeNode.ids aliceTree).Nodup ∧
    (EmployeeNode.ids (EmployeeNode.deleteEmployee aliceTree 5).1).Nodup ∧
    (EmployeeNode.ids (EmployeeNode.updateEmployee aliceTree 5 "Eve" "Intern").1).Nodup ∧
    (EmployeeNode.ids (EmployeeNode.promoteEmployee aliceTree 5 "Intern").1).Nodup ∧
    (EmployeeNode.ids (EmployeeNode.demoteEmployee aliceTree 5 "Intern").1).Nodup ∧
    (5 ∉ EmployeeNode.ids aliceTree →
      ∃ t1, (manageEmployee (some aliceTree) .ADD_SUBORDINATE 5 "Eve" "Intern" 2).ceo
          = some t1 ∧ (EmployeeNode.ids t1).Nodup) :=
  ⟨by decide, EmployeeNode.ids_stay_distinct aliceTree 5 "Eve" "Intern" 2 (by decide)⟩

/-! ## C18: what the exported text determines -/

/-! ### Printing an integer -/

